import Mathlib

set_option maxRecDepth 4000000

/-!
Verification development for the kube-router network-policy pod firewall
synchronizer (pkg/controllers/netpol/pod.go).

The Go code mutates host iptables state through the coreos/go-iptables
executor.  We embed that state as an explicit value of type `IPT` (an
association list from (table, chain) to the ordered list of rule
specifications) and embed every function of pod.go as a pure Lean function
threading this state.  The executor primitives (`NewChain`, `Exists`,
`Insert`, `Append`, `AppendUnique`) are modelled from the documented
behaviour of coreos/go-iptables: `Exists` runs a check command and reports
false (without error) when the rule or the chain is absent; `NewChain` on an
existing chain and mutations on a missing chain fail with exit status 1;
`AppendUnique` checks existence first and appends only when absent.
-/

namespace KubeRouter

/-- A rule specification: the argument vector handed to the executor
(for example "-m", "comment", "--comment", c, "-j", target). -/
abbrev Rule := List String

/-- Error value of the executor, mirroring *iptables.Error: the exit status
of the underlying command plus its message. -/
structure IPTErr where
  exitStatus : Nat
  msg : String
deriving DecidableEq, Repr

/-- The host packet-filter state: for each existing (table, chain) pair, the
ordered list of rules of that chain (index 0 = head of the chain). -/
structure IPT where
  chains : List ((String × String) × List Rule)
deriving DecidableEq, Repr

/-- Look up a (table, chain) key in the chain list. -/
def lookupChain : List ((String × String) × List Rule) → String → String →
    Option (List Rule)
  | [], _, _ => none
  | p :: rest, table, chain =>
    if p.1 = (table, chain) then some p.2 else lookupChain rest table chain

/-- Look up a chain; none when the chain does not exist in the table. -/
def getChain (s : IPT) (table chain : String) : Option (List Rule) :=
  lookupChain s.chains table chain

/-- The rules of a chain, empty when the chain does not exist. -/
def rulesOf (s : IPT) (table chain : String) : List Rule :=
  (getChain s table chain).getD []

/-- Whether a chain exists in a table. -/
def chainExists (s : IPT) (table chain : String) : Bool :=
  (getChain s table chain).isSome

/-- Overwrite every entry of a (table, chain) key with a new rule list. -/
def overwriteChain : List ((String × String) × List Rule) → String → String →
    List Rule → List ((String × String) × List Rule)
  | [], _, _, _ => []
  | p :: rest, table, chain, rules =>
    (if p.1 = (table, chain) then (p.1, rules) else p) ::
      overwriteChain rest table chain rules

/-- Replace the rule list of an existing chain. -/
def setChain (s : IPT) (table chain : String) (rules : List Rule) : IPT :=
  ⟨overwriteChain s.chains table chain rules⟩

/-- Executor primitive: create a chain.  Fails with exit status 1 when the
chain already exists (the state is left unchanged). -/
def iptNewChain (s : IPT) (table chain : String) : IPT × Option IPTErr :=
  match getChain s table chain with
  | some _ => (s, some ⟨1, "Chain already exists."⟩)
  | none => (⟨s.chains ++ [((table, chain), [])]⟩, none)

/-- Executor primitive: rule existence check.  Modelled from go-iptables
Exists, which reports false (no error) when the rule, or the whole chain, is
absent. -/
def iptExists (s : IPT) (table chain : String) (rule : Rule) : Bool :=
  match getChain s table chain with
  | some rs => decide (rule ∈ rs)
  | none => false

/-- Executor primitive: insert a rule at a 1-based position.  Fails with
exit status 1 when the chain is missing or the position is out of range. -/
def iptInsert (s : IPT) (table chain : String) (pos : Nat) (rule : Rule) :
    IPT × Option IPTErr :=
  match getChain s table chain with
  | none => (s, some ⟨1, "No chain/target/match by that name."⟩)
  | some rs =>
    if pos = 0 ∨ rs.length + 1 < pos then
      (s, some ⟨1, "Index of insertion too big."⟩)
    else
      (setChain s table chain (rs.take (pos - 1) ++ [rule] ++ rs.drop (pos - 1)), none)

/-- Executor primitive: append a rule at the tail of a chain.  Fails with
exit status 1 when the chain is missing. -/
def iptAppend (s : IPT) (table chain : String) (rule : Rule) : IPT × Option IPTErr :=
  match getChain s table chain with
  | none => (s, some ⟨1, "No chain/target/match by that name."⟩)
  | some rs => (setChain s table chain (rs ++ [rule]), none)

/-- Executor primitive: existence-checked append, modelled from go-iptables
AppendUnique ("acts like Append except that it will not add a duplicate"). -/
def iptAppendUnique (s : IPT) (table chain : String) (rule : Rule) :
    IPT × Option IPTErr :=
  if iptExists s table chain rule then (s, none)
  else iptAppend s table chain rule

/-! SHA-256 (FIPS 180-4), embedding the Go standard library crypto/sha256
used by the chain namers.  All words are Nat values kept below 2 ^ 32. -/

/-- The word modulus 2 ^ 32. -/
def u32 : Nat := 4294967296

/-- Right rotation of a 32-bit word. -/
def rotr (n x : Nat) : Nat := (x >>> n) ||| ((x <<< (32 - n)) % u32)

/-- Message-schedule sigma-0. -/
def smallSigma0 (x : Nat) : Nat := rotr 7 x ^^^ rotr 18 x ^^^ (x >>> 3)

/-- Message-schedule sigma-1. -/
def smallSigma1 (x : Nat) : Nat := rotr 17 x ^^^ rotr 19 x ^^^ (x >>> 10)

/-- Compression big-sigma-0. -/
def bigSigma0 (x : Nat) : Nat := rotr 2 x ^^^ rotr 13 x ^^^ rotr 22 x

/-- Compression big-sigma-1. -/
def bigSigma1 (x : Nat) : Nat := rotr 6 x ^^^ rotr 11 x ^^^ rotr 25 x

/-- Choice function. -/
def shaCh (e f g : Nat) : Nat := (e &&& f) ^^^ ((e ^^^ 4294967295) &&& g)

/-- Majority function. -/
def shaMaj (a b c : Nat) : Nat := (a &&& b) ^^^ (a &&& c) ^^^ (b &&& c)

/-- The 64 round constants (FIPS 180-4, in decimal). -/
def sha256K : List Nat :=
  [1116352408, 1899447441, 3049323471, 3921009573, 961987163,
   1508970993, 2453635748, 2870763221, 3624381080, 310598401,
   607225278, 1426881987, 1925078388, 2162078206, 2614888103,
   3248222580, 3835390401, 4022224774, 264347078, 604807628,
   770255983, 1249150122, 1555081692, 1996064986, 2554220882,
   2821834349, 2952996808, 3210313671, 3336571891, 3584528711,
   113926993, 338241895, 666307205, 773529912, 1294757372,
   1396182291, 1695183700, 1986661051, 2177026350, 2456956037,
   2730485921, 2820302411, 3259730800, 3345764771, 3516065817,
   3600352804, 4094571909, 275423344, 430227734, 506948616,
   659060556, 883997877, 958139571, 1322822218, 1537002063,
   1747873779, 1955562222, 2024104815, 2227730452, 2361852424,
   2428436474, 2756734187, 3204031479, 3329325298]

/-- The eight hash words carried between blocks. -/
structure ShaSt where
  s0 : Nat
  s1 : Nat
  s2 : Nat
  s3 : Nat
  s4 : Nat
  s5 : Nat
  s6 : Nat
  s7 : Nat
deriving DecidableEq, Repr

/-- Initial hash state (FIPS 180-4, in decimal). -/
def shaInit : ShaSt :=
  ⟨1779033703, 3144134277, 1013904242, 2773480762,
   1359893119, 2600822924, 528734635, 1541459225⟩

/-- Big-endian packing of four bytes into one word. -/
def bytesToWord (b0 b1 b2 b3 : Nat) : Nat :=
  (b0 <<< 24) ||| (b1 <<< 16) ||| (b2 <<< 8) ||| b3

/-- Big-endian packing of a byte list into words (groups of four). -/
def toWords : List Nat → List Nat
  | b0 :: b1 :: b2 :: b3 :: rest => bytesToWord b0 b1 b2 b3 :: toWords rest
  | _ => []

/-- Extend the (reversed) message schedule by n further words. -/
def extendW : Nat → List Nat → List Nat
  | 0, wrev => wrev
  | n + 1, wrev =>
    let w2 := wrev.getD 1 0
    let w7 := wrev.getD 6 0
    let w15 := wrev.getD 14 0
    let w16 := wrev.getD 15 0
    extendW n (((smallSigma1 w2 + w7 + smallSigma0 w15 + w16) % u32) :: wrev)

/-- One compression round with schedule word wt and constant kt. -/
def shaRound (r : ShaSt) (wt kt : Nat) : ShaSt :=
  let t1 := (r.s7 + bigSigma1 r.s4 + shaCh r.s4 r.s5 r.s6 + kt + wt) % u32
  let t2 := (bigSigma0 r.s0 + shaMaj r.s0 r.s1 r.s2) % u32
  ⟨(t1 + t2) % u32, r.s0, r.s1, r.s2, (r.s3 + t1) % u32, r.s4, r.s5, r.s6⟩

/-- Process one 64-byte block (already split into 16 words). -/
def shaBlock (ws : List Nat) (st : ShaSt) : ShaSt :=
  let w := (extendW 48 ws.reverse).reverse
  let r := (w.zip sha256K).foldl (fun r p => shaRound r p.1 p.2) st
  ⟨(st.s0 + r.s0) % u32, (st.s1 + r.s1) % u32, (st.s2 + r.s2) % u32,
   (st.s3 + r.s3) % u32, (st.s4 + r.s4) % u32, (st.s5 + r.s5) % u32,
   (st.s6 + r.s6) % u32, (st.s7 + r.s7) % u32⟩

/-- Process the given number of 64-byte blocks from the padded message. -/
def shaBlocks : Nat → List Nat → ShaSt → ShaSt
  | 0, _, st => st
  | n + 1, bytes, st => shaBlocks n (bytes.drop 64) (shaBlock (toWords (bytes.take 64)) st)

/-- FIPS 180-4 padding: a 0x80 byte, zeros to 56 mod 64, then the bit length
as eight big-endian bytes. -/
def sha256Pad (msg : List Nat) : List Nat :=
  let len := msg.length
  let zeros := (120 - ((len + 1) % 64)) % 64
  let bitLen := len * 8
  msg ++ [0x80] ++ List.replicate zeros 0 ++
    [(bitLen >>> 56) % 256, (bitLen >>> 48) % 256, (bitLen >>> 40) % 256,
     (bitLen >>> 32) % 256, (bitLen >>> 24) % 256, (bitLen >>> 16) % 256,
     (bitLen >>> 8) % 256, bitLen % 256]

/-- Big-endian bytes of one hash word. -/
def wordBytes (x : Nat) : List Nat :=
  [(x >>> 24) % 256, (x >>> 16) % 256, (x >>> 8) % 256, x % 256]

/-- SHA-256 digest (32 bytes) of a byte list; embeds Go sha256.Sum256. -/
def sha256 (msg : List Nat) : List Nat :=
  let padded := sha256Pad msg
  let st := shaBlocks (padded.length / 64) padded shaInit
  wordBytes st.s0 ++ wordBytes st.s1 ++ wordBytes st.s2 ++ wordBytes st.s3 ++
    wordBytes st.s4 ++ wordBytes st.s5 ++ wordBytes st.s6 ++ wordBytes st.s7

/-- UTF-8 encoding of one unicode code point, as Go string-to-byte-slice
conversion performs it. -/
def utf8Bytes (c : Nat) : List Nat :=
  if c < 0x80 then [c]
  else if c < 0x800 then
    [0xC0 ||| (c >>> 6), 0x80 ||| (c &&& 0x3F)]
  else if c < 0x10000 then
    [0xE0 ||| (c >>> 12), 0x80 ||| ((c >>> 6) &&& 0x3F), 0x80 ||| (c &&& 0x3F)]
  else
    [0xF0 ||| (c >>> 18), 0x80 ||| ((c >>> 12) &&& 0x3F),
     0x80 ||| ((c >>> 6) &&& 0x3F), 0x80 ||| (c &&& 0x3F)]

/-- The bytes of a string under UTF-8, embedding the Go conversion
from string to byte slice. -/
def strBytes (s : String) : List Nat :=
  (s.data.map (fun c => utf8Bytes c.toNat)).flatten

/-- Sanity anchor for the hash embedding: the FIPS 180-4 test vector for
the string abc. -/
example :
    sha256 (strBytes "abc") =
      [186, 120, 22, 191, 143, 1, 207, 234,
       65, 65, 64, 222, 93, 174, 34, 35,
       176, 3, 97, 163, 150, 23, 122, 156,
       180, 16, 255, 97, 242, 0, 21, 173] := by decide

/-! Base32 (RFC 4648, standard alphabet with padding), embedding the Go
standard library base32.StdEncoding used by the chain namers. -/

/-- Character of the standard base32 alphabet at a 5-bit index. -/
def b32Char (i : Nat) : Char :=
  "ABCDEFGHIJKLMNOPQRSTUVWXYZ234567".data.getD i 'A'

/-- RFC 4648 standard base32 encoding of a byte list, with padding. -/
def b32 : List Nat → List Char
  | b0 :: b1 :: b2 :: b3 :: b4 :: rest =>
    let v := (b0 <<< 32) ||| (b1 <<< 24) ||| (b2 <<< 16) ||| (b3 <<< 8) ||| b4
    [b32Char ((v >>> 35) &&& 31), b32Char ((v >>> 30) &&& 31),
     b32Char ((v >>> 25) &&& 31), b32Char ((v >>> 20) &&& 31),
     b32Char ((v >>> 15) &&& 31), b32Char ((v >>> 10) &&& 31),
     b32Char ((v >>> 5) &&& 31), b32Char (v &&& 31)] ++ b32 rest
  | [b0, b1, b2, b3] =>
    let v := ((b0 <<< 24) ||| (b1 <<< 16) ||| (b2 <<< 8) ||| b3) <<< 3
    [b32Char ((v >>> 30) &&& 31), b32Char ((v >>> 25) &&& 31),
     b32Char ((v >>> 20) &&& 31), b32Char ((v >>> 15) &&& 31),
     b32Char ((v >>> 10) &&& 31), b32Char ((v >>> 5) &&& 31),
     b32Char (v &&& 31)] ++ List.replicate 1 '='
  | [b0, b1, b2] =>
    let v := ((b0 <<< 16) ||| (b1 <<< 8) ||| b2) <<< 1
    [b32Char ((v >>> 20) &&& 31), b32Char ((v >>> 15) &&& 31),
     b32Char ((v >>> 10) &&& 31), b32Char ((v >>> 5) &&& 31),
     b32Char (v &&& 31)] ++ List.replicate 3 '='
  | [b0, b1] =>
    let v := ((b0 <<< 8) ||| b1) <<< 4
    [b32Char ((v >>> 15) &&& 31), b32Char ((v >>> 10) &&& 31),
     b32Char ((v >>> 5) &&& 31), b32Char (v &&& 31)] ++ List.replicate 4 '='
  | [b0] =>
    [b32Char (b0 >>> 3), b32Char ((b0 &&& 7) <<< 2)] ++ List.replicate 6 '='
  | [] => []

/-- Base32 encoding as a string; embeds Go base32.StdEncoding.EncodeToString. -/
def base32Encode (bytes : List Nat) : String := String.mk (b32 bytes)

/-- Sanity anchors for the base32 embedding: RFC 4648 test vectors. -/
example :
    base32Encode (strBytes "foobar") = "MZXW6YTBOI======" ∧
      base32Encode (strBytes "fooba") = "MZXW6YTB" ∧
      base32Encode (strBytes "foob") = "MZXW6YQ=" ∧
      base32Encode (strBytes "foo") = "MZXW6===" ∧
      base32Encode (strBytes "fo") = "MZXQ====" ∧
      base32Encode (strBytes "f") = "MY======" := by decide

/-! Chain names and global chain constants.  The constants and the policy
chain namer are declared in the repository outside pod.go (not under src/),
so they are modelled from the spec. -/

/-- Modelled from the spec: the role prefix of pod firewall chains (the
constant named kubePodFirewallChainPrefix in the repository, declared
outside pod.go). -/
def kubePodFirewallChainPfx : String := "KUBE-POD-FW-"

/-- Modelled from the spec: the role prefix of per-policy chains (the
constant named kubeNetworkPolicyChainPrefix in the repository, declared
outside pod.go). -/
def kubeNetworkPolicyChainPfx : String := "KUBE-NWPLCY-"

/-- Modelled from the spec: the pre-provisioned global forward chain name
(constant kubeForwardChainName, declared outside pod.go); its concrete
value is opaque to pod.go. -/
def kubeForwardChainName : String := "KUBE-ROUTER-FORWARD"

/-- Modelled from the spec: the pre-provisioned global output chain name
(constant kubeOutputChainName, declared outside pod.go). -/
def kubeOutputChainName : String := "KUBE-ROUTER-OUTPUT"

/-- Modelled from the spec: the pre-provisioned global input chain name
(constant kubeInputChainName, declared outside pod.go). -/
def kubeInputChainName : String := "KUBE-ROUTER-INPUT"

/-- Modelled from the spec: the pre-provisioned default ingress policy
chain (constant kubeIngressNetpolChain, declared outside pod.go). -/
def kubeIngressNetpolChain : String := "KUBE-ROUTER-INGRESS"

/-- Modelled from the spec: the pre-provisioned default egress policy
chain (constant kubeEgressNetpolChain, declared outside pod.go). -/
def kubeEgressNetpolChain : String := "KUBE-ROUTER-EGRESS"

/-- Embeds podFirewallChainName (pod.go lines 406-410): role prefix plus
the first 16 bytes of the base32 encoding of the SHA-256 digest of the
concatenation namespace + podName + version. -/
def podFirewallChainName (nspace podName version : String) : String :=
  kubePodFirewallChainPfx ++
    (base32Encode (sha256 (strBytes (nspace ++ podName ++ version)))).take 16

/-- Modelled from the spec: networkPolicyChainName (declared outside
pod.go), with the chain-name encoding the spec gives for every chain namer:
role prefix plus the first 16 characters of the base32 encoding of the
cryptographic hash of namespace + name + version. -/
def networkPolicyChainName (nspace name version : String) : String :=
  kubeNetworkPolicyChainPfx ++
    (base32Encode (sha256 (strBytes (nspace ++ name ++ version)))).take 16

/-! The data model: pods as delivered by the Kubernetes api (the fields of
api.Pod read by pod.go), the local pod snapshot, the resolved policy
snapshot, and the controller. -/

/-- The fields of an api.Pod object that pod.go reads. -/
structure Pod where
  metaName : String
  metaNamespace : String
  metaLabels : List (String × String)
  statusPhase : String
  statusHostIP : String
  statusPodIP : String
deriving DecidableEq, Repr

/-- Embeds the podInfo snapshot built by getLocalPods. -/
structure podInfo where
  ip : String
  name : String
  nspace : String
  labels : List (String × String)
deriving DecidableEq, Repr

/-- Embeds networkPolicyInfo as consumed by pod.go: identity plus the
addresses of the pods the policy targets (the key set of the Go
targetPods map). -/
structure networkPolicyInfo where
  name : String
  nspace : String
  targetPods : List String
deriving DecidableEq, Repr

/-- The controller state pod.go reads: the node address and the pod cache
behind podLister.List(). -/
structure NetworkPolicyController where
  nodeIP : String
  podLister : List Pod
deriving DecidableEq, Repr

/-- Embeds the UpdateFunc installed by newPodEventHandler (pod.go lines
21-28), counting resync requests: OnPodUpdate (hence RequestFullSync) runs
exactly once when the status phase or the pod address changed, else the
notification is dropped. -/
def podUpdateResyncRequests (oldPoObj newPoObj : Pod) : Nat :=
  if newPoObj.statusPhase ≠ oldPoObj.statusPhase ∨
      newPoObj.statusPodIP ≠ oldPoObj.statusPodIP then 1 else 0

/-- Go map assignment on a string-keyed association list: overwrite the
existing entry or add a new one at the end. -/
def mapSet (m : List (String × podInfo)) (k : String) (v : podInfo) :
    List (String × podInfo) :=
  if m.any (fun p => decide (p.1 = k)) then
    m.map (fun p => if p.1 = k then (k, v) else p)
  else m ++ [(k, v)]

/-- The loop body of getLocalPods (pod.go lines 388-402): skip pods hosted
elsewhere (strings.Compare different from 0) and pods without an assigned
address, key the rest by address. -/
def getLocalPodsStep (nodeIP : String) (localPods : List (String × podInfo))
    (pod : Pod) : List (String × podInfo) :=
  if pod.statusHostIP ≠ nodeIP then localPods
  else if pod.statusPodIP.length = 0 ∨ pod.statusPodIP = "" then localPods
  else
    mapSet localPods pod.statusPodIP
      ⟨pod.statusPodIP, pod.metaName, pod.metaNamespace, pod.metaLabels⟩

/-- Embeds getLocalPods (pod.go lines 386-404): scan the pod cache with the
loop body above.  The Go function always returns a nil error. -/
def getLocalPods (npc : NetworkPolicyController) (nodeIP : String) :
    List (String × podInfo) × Option String :=
  (npc.podLister.foldl (getLocalPodsStep nodeIP) [], none)

/-! The rule specifications built by pod.go, one definition per source
construction site. -/

/-- The policy jump rule built by setupPodIngressRules (pod.go lines
252-254). -/
def ingressPolicyJumpArgs (policy : networkPolicyInfo) (version : String) : Rule :=
  ["-m", "comment", "--comment", "run through nw policy " ++ policy.name,
   "-j", networkPolicyChainName policy.nspace policy.name version]

/-- The policy jump rule built by setupPodEgressRules (pod.go lines
320-322); the source text is character for character the text of the
ingress site. -/
def egressPolicyJumpArgs (policy : networkPolicyInfo) (version : String) : Rule :=
  ["-m", "comment", "--comment", "run through nw policy " ++ policy.name,
   "-j", networkPolicyChainName policy.nspace policy.name version]

/-- The default ingress jump rule (pod.go lines 268-269; the doubled space
in the comment is in the source). -/
def defaultIngressJumpArgs (pod : podInfo) : Rule :=
  ["-d", pod.ip, "-m", "comment", "--comment",
   "run through default ingress policy  chain", "-j", kubeIngressNetpolChain]

/-- The default egress jump rule (pod.go lines 336-337). -/
def defaultEgressJumpArgs (pod : podInfo) : Rule :=
  ["-s", pod.ip, "-m", "comment", "--comment",
   "run through default egress policy  chain", "-j", kubeEgressNetpolChain]

/-- The node-local allow rule (pod.go lines 282-283). -/
def localNodeAllowArgs (pod : podInfo) : Rule :=
  ["-m", "comment", "--comment",
   "rule to permit the traffic traffic to pods when source is the pod\x27s local node",
   "-m", "addrtype", "--src-type", "LOCAL", "-d", pod.ip, "-j", "ACCEPT"]

/-- The stateful firewall allow rule (pod.go lines 296-297 and, with the
same text, lines 351-352). -/
def statefulFirewallArgs : Rule :=
  ["-m", "comment", "--comment", "rule for stateful firewall for pod",
   "-m", "conntrack", "--ctstate", "RELATED,ESTABLISHED", "-j", "ACCEPT"]

/-- The inbound interception jump rule (pod.go lines 150-152). -/
def inboundJumpArgs (pod : podInfo) (podFwChainName : String) : Rule :=
  ["-m", "comment", "--comment",
   "rule to jump traffic destined to POD name:" ++ pod.name ++ " namespace: " ++
     pod.nspace ++ " to chain " ++ podFwChainName,
   "-d", pod.ip, "-j", podFwChainName]

/-- The bridged inbound interception jump rule (pod.go lines 179-184). -/
def inboundBridgedJumpArgs (pod : podInfo) (podFwChainName : String) : Rule :=
  ["-m", "physdev", "--physdev-is-bridged", "-m", "comment", "--comment",
   "rule to jump traffic destined to POD name:" ++ pod.name ++ " namespace: " ++
     pod.nspace ++ " to chain " ++ podFwChainName,
   "-d", pod.ip, "-j", podFwChainName]

/-- The outbound interception jump rule (pod.go lines 206-208). -/
def outboundJumpArgs (pod : podInfo) (podFwChainName : String) : Rule :=
  ["-m", "comment", "--comment",
   "rule to jump traffic from POD name:" ++ pod.name ++ " namespace: " ++
     pod.nspace ++ " to chain " ++ podFwChainName,
   "-s", pod.ip, "-j", podFwChainName]

/-- The bridged outbound interception jump rule (pod.go lines 223-228). -/
def outboundBridgedJumpArgs (pod : podInfo) (podFwChainName : String) : Rule :=
  ["-m", "physdev", "--physdev-is-bridged", "-m", "comment", "--comment",
   "rule to jump traffic from POD name:" ++ pod.name ++ " namespace: " ++
     pod.nspace ++ " to chain " ++ podFwChainName,
   "-s", pod.ip, "-j", podFwChainName]

/-- The unmatched-traffic log rule (pod.go lines 368-369). -/
def logDropArgs (podName podNamespace : String) : Rule :=
  ["-m", "comment", "--comment",
   "rule to log dropped traffic POD name:" ++ podName ++ " namespace: " ++ podNamespace,
   "-m", "mark", "!", "--mark", "0x10000/0x10000", "-j", "NFLOG",
   "--nflog-group", "100", "-m", "limit", "--limit", "10/minute",
   "--limit-burst", "10"]

/-- The unmatched-traffic reject rule (pod.go lines 376-377). -/
def rejectArgs (podName podNamespace : String) : Rule :=
  ["-m", "comment", "--comment",
   "rule to REJECT traffic destined for POD name:" ++ podName ++ " namespace: " ++
     podNamespace,
   "-m", "mark", "!", "--mark", "0x10000/0x10000", "-j", "REJECT"]

/-- The mark-reset rule (pod.go line 126); it carries no comment. -/
def markResetArgs : Rule := ["-j", "MARK", "--set-mark", "0/0x10000"]

/-- The mark-accept rule (pod.go lines 134-135). -/
def markAcceptArgs : Rule :=
  ["-m", "comment", "--comment",
   "set mark to ACCEPT traffic that comply to network policies",
   "-j", "MARK", "--set-mark", "0x20000/0x20000"]

/-! The pod.go functions, state passing made explicit. -/

/-- Outcome of one rule-building step: the packet-filter state so far plus,
on failure, the wrapped error message the Go function returns. -/
inductive StepRes where
  | ok (s : IPT)
  | fail (s : IPT) (msg : String)
deriving DecidableEq, Repr

/-- The state carried by a step outcome. -/
def StepRes.state : StepRes → IPT
  | .ok s => s
  | .fail s _ => s

/-- Sequencing of steps: a failure short-circuits, as an early return does
in the source. -/
def StepRes.andThen : StepRes → (IPT → StepRes) → StepRes
  | .ok s, f => f s
  | .fail s m, _ => .fail s m

/-- The recurring source pattern Exists, then Insert at position 1 when
absent, any insert error wrapped and returned (used at pod.go lines
284-293, 298-307, 353-362, and by the interception sites). -/
def checkInsert (s : IPT) (chain : String) (args : Rule) : StepRes :=
  if iptExists s "filter" chain args then .ok s
  else
    match iptInsert s "filter" chain 1 args with
    | (s2, some e) => .fail s2 ("Failed to run iptables command: " ++ e.msg)
    | (s2, none) => .ok s2

/-- The source pattern Exists, then Insert at position 1 when absent, with
an insert error of exit status 1 tolerated (pod.go lines 270-279 and
338-347). -/
def checkInsertTol (s : IPT) (chain : String) (args : Rule) : StepRes :=
  if iptExists s "filter" chain args then .ok s
  else
    match iptInsert s "filter" chain 1 args with
    | (s2, some e) =>
      if e.exitStatus ≠ 1 then .fail s2 ("Failed to run iptables command: " ++ e.msg)
      else .ok s2
    | (s2, none) => .ok s2

/-- The source pattern Exists, then AppendUnique when absent (pod.go lines
209-218). -/
def checkAppendUnique (s : IPT) (chain : String) (args : Rule) : StepRes :=
  if iptExists s "filter" chain args then .ok s
  else
    match iptAppendUnique s "filter" chain args with
    | (s2, some e) => .fail s2 ("Failed to run iptables command: " ++ e.msg)
    | (s2, none) => .ok s2

/-- Bare AppendUnique with the error wrapped (pod.go lines 127-130,
136-139, 370-373, 378-381). -/
def appendUniqueStep (s : IPT) (chain : String) (args : Rule) : StepRes :=
  match iptAppendUnique s "filter" chain args with
  | (s2, some e) => .fail s2 ("Failed to run iptables command: " ++ e.msg)
  | (s2, none) => .ok s2

/-- Outcome of the per-policy loops: state plus the policies-present flag. -/
inductive LoopRes where
  | ok (s : IPT) (present : Bool)
  | fail (s : IPT) (msg : String)
deriving DecidableEq, Repr

/-- The policy loop of setupPodIngressRules (pod.go lines 247-265): for
each policy whose targetPods holds the pod address, set the flag and insert
the jump rule at the chain head unless it exists; an insert error of exit
status 1 is tolerated. -/
def ingressPolicyLoop (pod : podInfo) (podFwChainName : String) (version : String) :
    List networkPolicyInfo → IPT → Bool → LoopRes
  | [], s, present => .ok s present
  | policy :: rest, s, present =>
    if pod.ip ∈ policy.targetPods then
      if iptExists s "filter" podFwChainName (ingressPolicyJumpArgs policy version) then
        ingressPolicyLoop pod podFwChainName version rest s true
      else
        match iptInsert s "filter" podFwChainName 1 (ingressPolicyJumpArgs policy version) with
        | (s2, some e) =>
          if e.exitStatus ≠ 1 then .fail s2 ("Failed to run iptables command: " ++ e.msg)
          else ingressPolicyLoop pod podFwChainName version rest s2 true
        | (s2, none) => ingressPolicyLoop pod podFwChainName version rest s2 true
    else ingressPolicyLoop pod podFwChainName version rest s present

/-- The policy loop of setupPodEgressRules (pod.go lines 315-333). -/
def egressPolicyLoop (pod : podInfo) (podFwChainName : String) (version : String) :
    List networkPolicyInfo → IPT → Bool → LoopRes
  | [], s, present => .ok s present
  | policy :: rest, s, present =>
    if pod.ip ∈ policy.targetPods then
      if iptExists s "filter" podFwChainName (egressPolicyJumpArgs policy version) then
        egressPolicyLoop pod podFwChainName version rest s true
      else
        match iptInsert s "filter" podFwChainName 1 (egressPolicyJumpArgs policy version) with
        | (s2, some e) =>
          if e.exitStatus ≠ 1 then .fail s2 ("Failed to run iptables command: " ++ e.msg)
          else egressPolicyLoop pod podFwChainName version rest s2 true
        | (s2, none) => egressPolicyLoop pod podFwChainName version rest s2 true
    else egressPolicyLoop pod podFwChainName version rest s present

/-- Embeds setupPodIngressRules (pod.go lines 244-309): policy jumps, the
default ingress jump when no policy targeted the pod, the node-local allow
rule, and the stateful firewall rule. -/
def setupPodIngressRules (pod : podInfo) (podFwChainName : String)
    (networkPoliciesInfo : List networkPolicyInfo) (version : String)
    (s : IPT) : StepRes :=
  match ingressPolicyLoop pod podFwChainName version networkPoliciesInfo s false with
  | .fail s2 m => .fail s2 m
  | .ok s2 ingressPoliciesPresent =>
    (if ingressPoliciesPresent then StepRes.ok s2
     else checkInsertTol s2 podFwChainName (defaultIngressJumpArgs pod)).andThen
      (fun s3 =>
        (checkInsert s3 podFwChainName (localNodeAllowArgs pod)).andThen
          (fun s4 => checkInsert s4 podFwChainName statefulFirewallArgs))

/-- Embeds setupPodEgressRules (pod.go lines 312-364): policy jumps, the
default egress jump when no policy targeted the pod, and the stateful
firewall rule. -/
def setupPodEgressRules (pod : podInfo) (podFwChainName : String)
    (networkPoliciesInfo : List networkPolicyInfo) (version : String)
    (s : IPT) : StepRes :=
  match egressPolicyLoop pod podFwChainName version networkPoliciesInfo s false with
  | .fail s2 m => .fail s2 m
  | .ok s2 egressPoliciesPresent =>
    (if egressPoliciesPresent then StepRes.ok s2
     else checkInsertTol s2 podFwChainName (defaultEgressJumpArgs pod)).andThen
      (fun s3 => checkInsert s3 podFwChainName statefulFirewallArgs)

/-- Embeds interceptPodInboundTraffic (pod.go lines 147-196). -/
def interceptPodInboundTraffic (pod : podInfo) (podFwChainName : String)
    (s : IPT) : StepRes :=
  (checkInsert s kubeForwardChainName (inboundJumpArgs pod podFwChainName)).andThen
    (fun s2 =>
      (checkInsert s2 kubeOutputChainName (inboundJumpArgs pod podFwChainName)).andThen
        (fun s3 =>
          checkInsert s3 kubeForwardChainName (inboundBridgedJumpArgs pod podFwChainName)))

/-- The chain loop of interceptPodOutboundTraffic (pod.go lines 201-219)
over the input, forward and output chains. -/
def outboundChainLoop (pod : podInfo) (podFwChainName : String) :
    List String → IPT → StepRes
  | [], s => .ok s
  | chain :: rest, s =>
    match checkAppendUnique s chain (outboundJumpArgs pod podFwChainName) with
    | .fail s2 m => .fail s2 m
    | .ok s2 => outboundChainLoop pod podFwChainName rest s2

/-- Embeds interceptPodOutboundTraffic (pod.go lines 200-241). -/
def interceptPodOutboundTraffic (pod : podInfo) (podFwChainName : String)
    (s : IPT) : StepRes :=
  (outboundChainLoop pod podFwChainName
      [kubeInputChainName, kubeForwardChainName, kubeOutputChainName] s).andThen
    (fun s2 =>
      checkInsert s2 kubeForwardChainName (outboundBridgedJumpArgs pod podFwChainName))

/-- Embeds dropUnmarkedTrafficRules (pod.go lines 366-384): AppendUnique of
the log rule, then AppendUnique of the reject rule. -/
def dropUnmarkedTrafficRules (podName podNamespace podFwChainName : String)
    (s : IPT) : StepRes :=
  (appendUniqueStep s podFwChainName (logDropArgs podName podNamespace)).andThen
    (fun s2 => appendUniqueStep s2 podFwChainName (rejectArgs podName podNamespace))

/-- The chain-creation step of syncPodFirewallChains (pod.go lines 86-89):
NewChain, tolerating an error of exit status 1 ("already exists"). -/
def newChainStep (s : IPT) (podFwChainName : String) : StepRes :=
  match iptNewChain s "filter" podFwChainName with
  | (s1, some err) =>
    if err.exitStatus ≠ 1 then .fail s1 ("Failed to run iptables command: " ++ err.msg)
    else .ok s1
  | (s1, none) => .ok s1

/-- The whole per-pod body of the syncPodFirewallChains loop (pod.go lines
83-139), in source order. -/
def syncPodSteps (networkPoliciesInfo : List networkPolicyInfo) (version : String)
    (pod : podInfo) (podFwChainName : String) (s : IPT) : StepRes :=
  (newChainStep s podFwChainName).andThen
    (fun s2 => setupPodIngressRules pod podFwChainName networkPoliciesInfo version s2)
    |>.andThen
      (fun s3 => setupPodEgressRules pod podFwChainName networkPoliciesInfo version s3)
    |>.andThen (fun s4 => interceptPodInboundTraffic pod podFwChainName s4)
    |>.andThen (fun s5 => interceptPodOutboundTraffic pod podFwChainName s5)
    |>.andThen (fun s6 => dropUnmarkedTrafficRules pod.name pod.nspace podFwChainName s6)
    |>.andThen (fun s7 => appendUniqueStep s7 podFwChainName markResetArgs)
    |>.andThen (fun s8 => appendUniqueStep s8 podFwChainName markAcceptArgs)

/-- Go map assignment on the active chain set. -/
def activeSetInsert (m : List (String × Bool)) (k : String) : List (String × Bool) :=
  if m.any (fun p => decide (p.1 = k)) then
    m.map (fun p => if p.1 = k then (k, true) else p)
  else m ++ [(k, true)]

/-- The pod loop of syncPodFirewallChains.  The source records the chain in
activePodFwChains immediately after NewChain; recording it on completion of
the pod body is observationally equal because every failure path of the
function discards the set and returns nil. -/
def syncLoop (networkPoliciesInfo : List networkPolicyInfo) (version : String) :
    List podInfo → IPT → List (String × Bool) →
      IPT × Option (List (String × Bool)) × Option String
  | [], s, active => (s, some active, none)
  | pod :: rest, s, active =>
    let podFwChainName := podFirewallChainName pod.nspace pod.name version
    match syncPodSteps networkPoliciesInfo version pod podFwChainName s with
    | .fail sf m => (sf, none, some m)
    | .ok s2 =>
      syncLoop networkPoliciesInfo version rest s2 (activeSetInsert active podFwChainName)

/-- Embeds syncPodFirewallChains (pod.go lines 70-143): resolve the local
pods, then run the per-pod body over them, accumulating the active chain
set.  Returns the final packet-filter state together with the two Go return
values (the active set, nil on failure, and the error, nil on success). -/
def syncPodFirewallChains (npc : NetworkPolicyController)
    (networkPoliciesInfo : List networkPolicyInfo) (version : String)
    (s : IPT) : IPT × Option (List (String × Bool)) × Option String :=
  match getLocalPods npc npc.nodeIP with
  | (_, some e) => (s, none, some e)
  | (allLocalPods, none) =>
    syncLoop networkPoliciesInfo version (allLocalPods.map (fun p => p.2)) s []

/-! Generic lemmas about the packet-filter state and the executor
primitives. -/

theorem lookupChain_nil (t c : String) : lookupChain [] t c = none := rfl

theorem lookupChain_cons (p : (String × String) × List Rule)
    (l : List ((String × String) × List Rule)) (t c : String) :
    lookupChain (p :: l) t c =
      if p.1 = (t, c) then some p.2 else lookupChain l t c := rfl

theorem overwriteChain_cons (p : (String × String) × List Rule)
    (l : List ((String × String) × List Rule)) (t c : String) (rs : List Rule) :
    overwriteChain (p :: l) t c rs =
      (if p.1 = (t, c) then (p.1, rs) else p) :: overwriteChain l t c rs := rfl

theorem lookupChain_overwrite (l : List ((String × String) × List Rule))
    (t c : String) (rs : List Rule) (t' c' : String) :
    lookupChain (overwriteChain l t c rs) t' c' =
      if (t', c') = (t, c) then (lookupChain l t c).map (fun _ => rs)
      else lookupChain l t' c' := by
  induction l with
  | nil =>
    by_cases h : (t', c') = (t, c) <;> simp [overwriteChain, lookupChain_nil, h]
  | cons hd tl ih =>
    simp only [overwriteChain_cons, lookupChain_cons]
    by_cases h1 : hd.1 = (t, c)
    · by_cases h2 : (t', c') = (t, c)
      · have ht : t' = t := congrArg Prod.fst h2
        have hc : c' = c := congrArg Prod.snd h2
        subst ht; subst hc
        simp [h1]
      · have h3 : ¬(hd.1 = (t', c')) := fun h => h2 (h.symm.trans h1)
        have h2' : ¬(t = t' ∧ c = c') := fun hp => h2 (by rw [hp.1, hp.2])
        simp [h1, h2, h2', h3, ih]
    · by_cases h2 : hd.1 = (t', c')
      · have h3 : ¬((t', c') = (t, c)) := fun h => h1 (h2.trans h)
        simp [h1, h2, h3]
      · simp [h1, h2, ih]

theorem lookupChain_append_some (l₁ l₂ : List ((String × String) × List Rule))
    (t c : String) (rs : List Rule) (h : lookupChain l₁ t c = some rs) :
    lookupChain (l₁ ++ l₂) t c = some rs := by
  induction l₁ with
  | nil => rw [lookupChain_nil] at h; cases h
  | cons hd tl ih =>
    rw [lookupChain_cons] at h
    rw [List.cons_append, lookupChain_cons]
    by_cases h1 : hd.1 = (t, c)
    · rw [if_pos h1] at h ⊢; exact h
    · rw [if_neg h1] at h ⊢; exact ih h

theorem lookupChain_append_none (l₁ l₂ : List ((String × String) × List Rule))
    (t c : String) (h : lookupChain l₁ t c = none) :
    lookupChain (l₁ ++ l₂) t c = lookupChain l₂ t c := by
  induction l₁ with
  | nil => simp
  | cons hd tl ih =>
    rw [lookupChain_cons] at h
    rw [List.cons_append, lookupChain_cons]
    by_cases h1 : hd.1 = (t, c)
    · rw [if_pos h1] at h; cases h
    · rw [if_neg h1] at h ⊢; exact ih h

theorem getChain_setChain (s : IPT) (t c : String) (rs : List Rule) (t' c' : String) :
    getChain (setChain s t c rs) t' c' =
      if (t', c') = (t, c) then (getChain s t c).map (fun _ => rs)
      else getChain s t' c' :=
  lookupChain_overwrite s.chains t c rs t' c'

theorem chainExists_setChain (s : IPT) (t c : String) (rs : List Rule) (t' c' : String) :
    chainExists (setChain s t c rs) t' c' = chainExists s t' c' := by
  unfold chainExists
  rw [getChain_setChain]
  by_cases h : (t', c') = (t, c)
  · rw [if_pos h]
    have ht : t' = t := congrArg Prod.fst h
    have hc : c' = c := congrArg Prod.snd h
    subst ht; subst hc
    cases getChain s t' c' <;> rfl
  · rw [if_neg h]

theorem rulesOf_setChain_self (s : IPT) (t c : String) (rs : List Rule)
    (h : chainExists s t c = true) :
    rulesOf (setChain s t c rs) t c = rs := by
  unfold rulesOf
  rw [getChain_setChain, if_pos rfl]
  unfold chainExists at h
  cases hg : getChain s t c
  · rw [hg] at h; cases h
  · rfl

theorem rulesOf_setChain_ne (s : IPT) (t c : String) (rs : List Rule) (t' c' : String)
    (h : (t', c') ≠ (t, c)) :
    rulesOf (setChain s t c rs) t' c' = rulesOf s t' c' := by
  unfold rulesOf
  rw [getChain_setChain, if_neg h]

/-- State evolution that loses no chain and no rule. -/
def Mono (s s' : IPT) : Prop :=
  (∀ t c, chainExists s t c = true → chainExists s' t c = true) ∧
  (∀ t c r, r ∈ rulesOf s t c → r ∈ rulesOf s' t c)

theorem Mono.mrfl (s : IPT) : Mono s s :=
  ⟨fun _ _ h => h, fun _ _ _ h => h⟩

theorem Mono.mtrans {s1 s2 s3 : IPT} (h1 : Mono s1 s2) (h2 : Mono s2 s3) : Mono s1 s3 :=
  ⟨fun t c h => h2.1 t c (h1.1 t c h), fun t c r h => h2.2 t c r (h1.2 t c r h)⟩

/-- State evolution whose every new rule satisfies P. -/
def AddsOnly (P : Rule → Prop) (s s' : IPT) : Prop :=
  ∀ t c r, r ∈ rulesOf s' t c → r ∈ rulesOf s t c ∨ P r

theorem AddsOnly.arfl (P : Rule → Prop) (s : IPT) : AddsOnly P s s :=
  fun _ _ _ h => Or.inl h

theorem AddsOnly.atrans {P : Rule → Prop} {s1 s2 s3 : IPT}
    (h1 : AddsOnly P s1 s2) (h2 : AddsOnly P s2 s3) : AddsOnly P s1 s3 := by
  intro t c r h
  rcases h2 t c r h with h | h
  · exact h1 t c r h
  · exact Or.inr h

theorem AddsOnly.weaken {P Q : Rule → Prop} {s s' : IPT}
    (h : AddsOnly P s s') (hPQ : ∀ r, P r → Q r) : AddsOnly Q s s' := by
  intro t c r hr
  rcases h t c r hr with h | h
  · exact Or.inl h
  · exact Or.inr (hPQ r h)

theorem iptExists_eq_true_of_mem {s : IPT} {t c : String} {r : Rule}
    (h : r ∈ rulesOf s t c) : iptExists s t c r = true := by
  unfold iptExists
  unfold rulesOf at h
  cases hg : getChain s t c
  · rw [hg] at h; simp at h
  · rw [hg] at h; simpa using h

theorem mem_of_iptExists_eq_true {s : IPT} {t c : String} {r : Rule}
    (h : iptExists s t c r = true) : r ∈ rulesOf s t c := by
  unfold iptExists at h
  unfold rulesOf
  cases hg : getChain s t c
  · rw [hg] at h; cases h
  · rw [hg] at h; simpa using h

theorem chainExists_of_getChain_some {s : IPT} {t c : String} {rs : List Rule}
    (h : getChain s t c = some rs) : chainExists s t c = true := by
  unfold chainExists
  rw [h]; rfl

theorem rulesOf_of_getChain_some {s : IPT} {t c : String} {rs : List Rule}
    (h : getChain s t c = some rs) : rulesOf s t c = rs := by
  unfold rulesOf
  rw [h]; rfl

theorem getChain_some_of_chainExists {s : IPT} {t c : String}
    (h : chainExists s t c = true) : ∃ rs, getChain s t c = some rs := by
  unfold chainExists at h
  cases hg : getChain s t c
  · rw [hg] at h; cases h
  · exact ⟨_, rfl⟩

theorem iptNewChain_some (s : IPT) (t c : String) (rs : List Rule)
    (h : getChain s t c = some rs) :
    iptNewChain s t c = (s, some ⟨1, "Chain already exists."⟩) := by
  unfold iptNewChain
  rw [h]

theorem iptNewChain_none (s : IPT) (t c : String) (h : getChain s t c = none) :
    iptNewChain s t c = (⟨s.chains ++ [((t, c), [])]⟩, none) := by
  unfold iptNewChain
  rw [h]

theorem getChain_appendNew (s : IPT) (t c t' c' : String) :
    getChain (⟨s.chains ++ [((t, c), [])]⟩ : IPT) t' c' =
      if getChain s t' c' = none then
        (if ((t, c) : String × String) = (t', c') then some [] else none)
      else getChain s t' c' := by
  unfold getChain
  cases hl : lookupChain s.chains t' c'
  · rw [lookupChain_append_none _ _ _ _ hl, if_pos rfl, lookupChain_cons]
    by_cases h2 : ((t, c) : String × String) = (t', c')
    · rw [if_pos h2, if_pos h2]
    · rw [if_neg h2, if_neg h2, lookupChain_nil]
  · rw [lookupChain_append_some _ _ _ _ _ hl]
    simp

theorem rulesOf_iptNewChain (s : IPT) (t c t' c' : String) :
    rulesOf (iptNewChain s t c).1 t' c' = rulesOf s t' c' := by
  unfold iptNewChain
  cases hg : getChain s t c
  · unfold rulesOf
    rw [getChain_appendNew]
    cases hl : getChain s t' c'
    · rw [if_pos rfl]
      by_cases h2 : ((t, c) : String × String) = (t', c')
      · rw [if_pos h2]; rfl
      · rw [if_neg h2]
    · rw [if_neg (fun h => Option.noConfusion h)]
  · rfl

theorem chainExists_iptNewChain_self (s : IPT) (t c : String) :
    chainExists (iptNewChain s t c).1 t c = true := by
  cases hg : getChain s t c
  · rw [iptNewChain_none s t c hg]
    unfold chainExists
    rw [getChain_appendNew, hg, if_pos rfl, if_pos rfl]
    rfl
  · rw [iptNewChain_some s t c _ hg]
    exact chainExists_of_getChain_some hg

theorem mono_iptNewChain (s : IPT) (t c : String) : Mono s (iptNewChain s t c).1 := by
  constructor
  · intro t' c' h
    cases hg : getChain s t c
    · rw [iptNewChain_none s t c hg]
      unfold chainExists
      rw [getChain_appendNew]
      obtain ⟨rs, hrs⟩ := getChain_some_of_chainExists h
      rw [if_neg (by rw [hrs]; exact fun h => Option.noConfusion h), hrs]
      rfl
    · rw [iptNewChain_some s t c _ hg]
      exact h
  · intro t' c' r h
    rw [rulesOf_iptNewChain]
    exact h

theorem addsOnly_iptNewChain (P : Rule → Prop) (s : IPT) (t c : String) :
    AddsOnly P s (iptNewChain s t c).1 := by
  intro t' c' r h
  rw [rulesOf_iptNewChain] at h
  exact Or.inl h

theorem iptInsert_one_some (s : IPT) (t c : String) (r : Rule) (rs : List Rule)
    (h : getChain s t c = some rs) :
    iptInsert s t c 1 r = (setChain s t c (r :: rs), none) := by
  unfold iptInsert
  rw [h]
  simp

theorem iptInsert_one_none (s : IPT) (t c : String) (r : Rule)
    (h : getChain s t c = none) :
    iptInsert s t c 1 r = (s, some ⟨1, "No chain/target/match by that name."⟩) := by
  unfold iptInsert
  rw [h]

theorem iptAppend_some (s : IPT) (t c : String) (r : Rule) (rs : List Rule)
    (h : getChain s t c = some rs) :
    iptAppend s t c r = (setChain s t c (rs ++ [r]), none) := by
  unfold iptAppend
  rw [h]

theorem iptAppend_none (s : IPT) (t c : String) (r : Rule)
    (h : getChain s t c = none) :
    iptAppend s t c r = (s, some ⟨1, "No chain/target/match by that name."⟩) := by
  unfold iptAppend
  rw [h]

theorem mono_setChain_cons (s : IPT) (t c : String) (r : Rule) (rs : List Rule)
    (h : getChain s t c = some rs) : Mono s (setChain s t c (r :: rs)) := by
  constructor
  · intro t' c' hex
    rw [chainExists_setChain]
    exact hex
  · intro t' c' r' hr
    by_cases he : (t', c') = (t, c)
    · have ht : t' = t := congrArg Prod.fst he
      have hc : c' = c := congrArg Prod.snd he
      subst ht; subst hc
      rw [rulesOf_setChain_self s t' c' _ (chainExists_of_getChain_some h)]
      rw [rulesOf_of_getChain_some h] at hr
      exact List.mem_cons_of_mem _ hr
    · rwa [rulesOf_setChain_ne s t c _ t' c' he]

theorem mono_setChain_append (s : IPT) (t c : String) (r : Rule) (rs : List Rule)
    (h : getChain s t c = some rs) : Mono s (setChain s t c (rs ++ [r])) := by
  constructor
  · intro t' c' hex
    rw [chainExists_setChain]
    exact hex
  · intro t' c' r' hr
    by_cases he : (t', c') = (t, c)
    · have ht : t' = t := congrArg Prod.fst he
      have hc : c' = c := congrArg Prod.snd he
      subst ht; subst hc
      rw [rulesOf_setChain_self s t' c' _ (chainExists_of_getChain_some h)]
      rw [rulesOf_of_getChain_some h] at hr
      exact List.mem_append_left _ hr
    · rwa [rulesOf_setChain_ne s t c _ t' c' he]

theorem addsOnly_setChain_cons (P : Rule → Prop) (s : IPT) (t c : String)
    (r : Rule) (rs : List Rule) (h : getChain s t c = some rs) (hP : P r) :
    AddsOnly P s (setChain s t c (r :: rs)) := by
  intro t' c' r' hr
  by_cases he : (t', c') = (t, c)
  · have ht : t' = t := congrArg Prod.fst he
    have hc : c' = c := congrArg Prod.snd he
    subst ht; subst hc
    rw [rulesOf_setChain_self s t' c' _ (chainExists_of_getChain_some h)] at hr
    rcases List.mem_cons.mp hr with h' | h'
    · exact Or.inr (h' ▸ hP)
    · exact Or.inl ((rulesOf_of_getChain_some h).symm ▸ h')
  · rw [rulesOf_setChain_ne s t c _ t' c' he] at hr
    exact Or.inl hr

theorem addsOnly_setChain_append (P : Rule → Prop) (s : IPT) (t c : String)
    (r : Rule) (rs : List Rule) (h : getChain s t c = some rs) (hP : P r) :
    AddsOnly P s (setChain s t c (rs ++ [r])) := by
  intro t' c' r' hr
  by_cases he : (t', c') = (t, c)
  · have ht : t' = t := congrArg Prod.fst he
    have hc : c' = c := congrArg Prod.snd he
    subst ht; subst hc
    rw [rulesOf_setChain_self s t' c' _ (chainExists_of_getChain_some h)] at hr
    rcases List.mem_append.mp hr with h' | h'
    · exact Or.inl ((rulesOf_of_getChain_some h).symm ▸ h')
    · exact Or.inr ((List.mem_singleton.mp h') ▸ hP)
  · rw [rulesOf_setChain_ne s t c _ t' c' he] at hr
    exact Or.inl hr

/-! Lemmas about the step wrappers. -/

theorem StepRes.andThen_okArg (s : IPT) (f : IPT → StepRes) :
    (StepRes.ok s).andThen f = f s := rfl

theorem StepRes.andThen_failArg (s : IPT) (m : String) (f : IPT → StepRes) :
    (StepRes.fail s m).andThen f = .fail s m := rfl

theorem StepRes.andThen_eq_ok {r : StepRes} {f : IPT → StepRes} {s' : IPT} :
    r.andThen f = .ok s' ↔ ∃ s1, r = .ok s1 ∧ f s1 = .ok s' := by
  cases r <;> simp [StepRes.andThen]

theorem mono_andThen {r : StepRes} {f : IPT → StepRes} {s : IPT}
    (hr : Mono s r.state) (hf : ∀ s1, Mono s1 (f s1).state) :
    Mono s ((r.andThen f).state) := by
  cases r with
  | ok s1 => exact hr.mtrans (hf s1)
  | fail s1 m => exact hr

theorem addsOnly_andThen {P : Rule → Prop} {r : StepRes} {f : IPT → StepRes} {s : IPT}
    (hr : AddsOnly P s r.state) (hf : ∀ s1, AddsOnly P s1 (f s1).state) :
    AddsOnly P s ((r.andThen f).state) := by
  cases r with
  | ok s1 => exact hr.atrans (hf s1)
  | fail s1 m => exact hr

theorem checkInsert_of_mem {s : IPT} {c : String} {args : Rule}
    (h : args ∈ rulesOf s "filter" c) : checkInsert s c args = .ok s := by
  unfold checkInsert
  rw [if_pos (iptExists_eq_true_of_mem h)]

theorem checkInsert_ok {s : IPT} {c : String} {args : Rule} {s' : IPT}
    (h : checkInsert s c args = .ok s') :
    args ∈ rulesOf s' "filter" c ∧ Mono s s' := by
  unfold checkInsert at h
  by_cases hex : iptExists s "filter" c args = true
  · rw [if_pos hex] at h
    injection h with h
    subst h
    exact ⟨mem_of_iptExists_eq_true hex, Mono.mrfl s⟩
  · rw [if_neg hex] at h
    cases hg : getChain s "filter" c with
    | none => rw [iptInsert_one_none s _ _ _ hg] at h; cases h
    | some rs =>
      rw [iptInsert_one_some s _ _ _ rs hg] at h
      injection h with h
      subst h
      refine ⟨?_, mono_setChain_cons s _ _ _ _ hg⟩
      rw [rulesOf_setChain_self s _ _ _ (chainExists_of_getChain_some hg)]
      exact List.mem_cons_self _ _

theorem mono_checkInsert (s : IPT) (c : String) (args : Rule) :
    Mono s ((checkInsert s c args).state) := by
  unfold checkInsert
  by_cases hex : iptExists s "filter" c args = true
  · rw [if_pos hex]; exact Mono.mrfl s
  · rw [if_neg hex]
    cases hg : getChain s "filter" c with
    | none => rw [iptInsert_one_none s _ _ _ hg]; exact Mono.mrfl s
    | some rs => rw [iptInsert_one_some s _ _ _ rs hg]; exact mono_setChain_cons s _ _ _ _ hg

theorem addsOnly_checkInsert (P : Rule → Prop) (s : IPT) (c : String) (args : Rule)
    (hP : P args) : AddsOnly P s ((checkInsert s c args).state) := by
  unfold checkInsert
  by_cases hex : iptExists s "filter" c args = true
  · rw [if_pos hex]; exact AddsOnly.arfl P s
  · rw [if_neg hex]
    cases hg : getChain s "filter" c with
    | none => rw [iptInsert_one_none s _ _ _ hg]; exact AddsOnly.arfl P s
    | some rs =>
      rw [iptInsert_one_some s _ _ _ rs hg]
      exact addsOnly_setChain_cons P s _ _ _ _ hg hP

theorem checkInsertTol_of_mem {s : IPT} {c : String} {args : Rule}
    (h : args ∈ rulesOf s "filter" c) : checkInsertTol s c args = .ok s := by
  unfold checkInsertTol
  rw [if_pos (iptExists_eq_true_of_mem h)]

theorem checkInsertTol_ok {s : IPT} {c : String} {args : Rule} {s' : IPT}
    (hch : chainExists s "filter" c = true)
    (h : checkInsertTol s c args = .ok s') :
    args ∈ rulesOf s' "filter" c ∧ Mono s s' := by
  unfold checkInsertTol at h
  by_cases hex : iptExists s "filter" c args = true
  · rw [if_pos hex] at h
    injection h with h
    subst h
    exact ⟨mem_of_iptExists_eq_true hex, Mono.mrfl s⟩
  · rw [if_neg hex] at h
    obtain ⟨rs, hg⟩ := getChain_some_of_chainExists hch
    rw [iptInsert_one_some s _ _ _ rs hg] at h
    injection h with h
    subst h
    refine ⟨?_, mono_setChain_cons s _ _ _ _ hg⟩
    rw [rulesOf_setChain_self s _ _ _ (chainExists_of_getChain_some hg)]
    exact List.mem_cons_self _ _

theorem mono_checkInsertTol (s : IPT) (c : String) (args : Rule) :
    Mono s ((checkInsertTol s c args).state) := by
  unfold checkInsertTol
  by_cases hex : iptExists s "filter" c args = true
  · rw [if_pos hex]; exact Mono.mrfl s
  · rw [if_neg hex]
    cases hg : getChain s "filter" c with
    | none => rw [iptInsert_one_none s _ _ _ hg]; exact Mono.mrfl s
    | some rs => rw [iptInsert_one_some s _ _ _ rs hg]; exact mono_setChain_cons s _ _ _ _ hg

theorem addsOnly_checkInsertTol (P : Rule → Prop) (s : IPT) (c : String) (args : Rule)
    (hP : P args) : AddsOnly P s ((checkInsertTol s c args).state) := by
  unfold checkInsertTol
  by_cases hex : iptExists s "filter" c args = true
  · rw [if_pos hex]; exact AddsOnly.arfl P s
  · rw [if_neg hex]
    cases hg : getChain s "filter" c with
    | none => rw [iptInsert_one_none s _ _ _ hg]; exact AddsOnly.arfl P s
    | some rs =>
      rw [iptInsert_one_some s _ _ _ rs hg]
      exact addsOnly_setChain_cons P s _ _ _ _ hg hP

theorem appendUniqueStep_of_mem {s : IPT} {c : String} {args : Rule}
    (h : args ∈ rulesOf s "filter" c) : appendUniqueStep s c args = .ok s := by
  unfold appendUniqueStep iptAppendUnique
  rw [if_pos (iptExists_eq_true_of_mem h)]

theorem appendUniqueStep_ok {s : IPT} {c : String} {args : Rule} {s' : IPT}
    (h : appendUniqueStep s c args = .ok s') :
    args ∈ rulesOf s' "filter" c ∧ Mono s s' := by
  unfold appendUniqueStep iptAppendUnique at h
  by_cases hex : iptExists s "filter" c args = true
  · rw [if_pos hex] at h
    injection h with h
    subst h
    exact ⟨mem_of_iptExists_eq_true hex, Mono.mrfl s⟩
  · rw [if_neg hex] at h
    cases hg : getChain s "filter" c with
    | none => rw [iptAppend_none s _ _ _ hg] at h; cases h
    | some rs =>
      rw [iptAppend_some s _ _ _ rs hg] at h
      injection h with h
      subst h
      refine ⟨?_, mono_setChain_append s _ _ _ _ hg⟩
      rw [rulesOf_setChain_self s _ _ _ (chainExists_of_getChain_some hg)]
      exact List.mem_append_right _ (List.mem_singleton_self _)

theorem mono_appendUniqueStep (s : IPT) (c : String) (args : Rule) :
    Mono s ((appendUniqueStep s c args).state) := by
  unfold appendUniqueStep iptAppendUnique
  by_cases hex : iptExists s "filter" c args = true
  · rw [if_pos hex]; exact Mono.mrfl s
  · rw [if_neg hex]
    cases hg : getChain s "filter" c with
    | none => rw [iptAppend_none s _ _ _ hg]; exact Mono.mrfl s
    | some rs => rw [iptAppend_some s _ _ _ rs hg]; exact mono_setChain_append s _ _ _ _ hg

theorem addsOnly_appendUniqueStep (P : Rule → Prop) (s : IPT) (c : String) (args : Rule)
    (hP : P args) : AddsOnly P s ((appendUniqueStep s c args).state) := by
  unfold appendUniqueStep iptAppendUnique
  by_cases hex : iptExists s "filter" c args = true
  · rw [if_pos hex]; exact AddsOnly.arfl P s
  · rw [if_neg hex]
    cases hg : getChain s "filter" c with
    | none => rw [iptAppend_none s _ _ _ hg]; exact AddsOnly.arfl P s
    | some rs =>
      rw [iptAppend_some s _ _ _ rs hg]
      exact addsOnly_setChain_append P s _ _ _ _ hg hP

theorem checkAppendUnique_of_mem {s : IPT} {c : String} {args : Rule}
    (h : args ∈ rulesOf s "filter" c) : checkAppendUnique s c args = .ok s := by
  unfold checkAppendUnique
  rw [if_pos (iptExists_eq_true_of_mem h)]

theorem checkAppendUnique_ok {s : IPT} {c : String} {args : Rule} {s' : IPT}
    (h : checkAppendUnique s c args = .ok s') :
    args ∈ rulesOf s' "filter" c ∧ Mono s s' := by
  unfold checkAppendUnique iptAppendUnique at h
  by_cases hex : iptExists s "filter" c args = true
  · rw [if_pos hex] at h
    injection h with h
    subst h
    exact ⟨mem_of_iptExists_eq_true hex, Mono.mrfl s⟩
  · rw [if_neg hex, if_neg hex] at h
    cases hg : getChain s "filter" c with
    | none => rw [iptAppend_none s _ _ _ hg] at h; cases h
    | some rs =>
      rw [iptAppend_some s _ _ _ rs hg] at h
      injection h with h
      subst h
      refine ⟨?_, mono_setChain_append s _ _ _ _ hg⟩
      rw [rulesOf_setChain_self s _ _ _ (chainExists_of_getChain_some hg)]
      exact List.mem_append_right _ (List.mem_singleton_self _)

theorem mono_checkAppendUnique (s : IPT) (c : String) (args : Rule) :
    Mono s ((checkAppendUnique s c args).state) := by
  unfold checkAppendUnique iptAppendUnique
  by_cases hex : iptExists s "filter" c args = true
  · rw [if_pos hex]; exact Mono.mrfl s
  · rw [if_neg hex, if_neg hex]
    cases hg : getChain s "filter" c with
    | none => rw [iptAppend_none s _ _ _ hg]; exact Mono.mrfl s
    | some rs => rw [iptAppend_some s _ _ _ rs hg]; exact mono_setChain_append s _ _ _ _ hg

theorem addsOnly_checkAppendUnique (P : Rule → Prop) (s : IPT) (c : String) (args : Rule)
    (hP : P args) : AddsOnly P s ((checkAppendUnique s c args).state) := by
  unfold checkAppendUnique iptAppendUnique
  by_cases hex : iptExists s "filter" c args = true
  · rw [if_pos hex]; exact AddsOnly.arfl P s
  · rw [if_neg hex, if_neg hex]
    cases hg : getChain s "filter" c with
    | none => rw [iptAppend_none s _ _ _ hg]; exact AddsOnly.arfl P s
    | some rs =>
      rw [iptAppend_some s _ _ _ rs hg]
      exact addsOnly_setChain_append P s _ _ _ _ hg hP

theorem newChainStep_of_exists {s : IPT} {c : String}
    (h : chainExists s "filter" c = true) : newChainStep s c = .ok s := by
  obtain ⟨rs, hg⟩ := getChain_some_of_chainExists h
  unfold newChainStep
  rw [iptNewChain_some s _ _ _ hg]
  simp

theorem newChainStep_ok {s : IPT} {c : String} {s' : IPT}
    (h : newChainStep s c = .ok s') :
    chainExists s' "filter" c = true ∧ Mono s s' ∧
      (∀ t' c', rulesOf s' t' c' = rulesOf s t' c') := by
  unfold newChainStep at h
  cases hg : getChain s "filter" c with
  | none =>
    rw [iptNewChain_none s _ _ hg] at h
    injection h with h
    subst h
    refine ⟨?_, ?_, ?_⟩
    · have := chainExists_iptNewChain_self s "filter" c
      rwa [iptNewChain_none s _ _ hg] at this
    · have := mono_iptNewChain s "filter" c
      rwa [iptNewChain_none s _ _ hg] at this
    · intro t' c'
      have := rulesOf_iptNewChain s "filter" c t' c'
      rwa [iptNewChain_none s _ _ hg] at this
  | some rs =>
    rw [iptNewChain_some s _ _ _ hg] at h
    simp at h
    subst h
    exact ⟨chainExists_of_getChain_some hg, Mono.mrfl s, fun _ _ => rfl⟩

theorem mono_newChainStep (s : IPT) (c : String) :
    Mono s ((newChainStep s c).state) := by
  unfold newChainStep
  cases hg : getChain s "filter" c with
  | none =>
    rw [iptNewChain_none s _ _ hg]
    have := mono_iptNewChain s "filter" c
    rwa [iptNewChain_none s _ _ hg] at this
  | some rs =>
    rw [iptNewChain_some s _ _ _ hg]
    exact Mono.mrfl s

theorem addsOnly_newChainStep (P : Rule → Prop) (s : IPT) (c : String) :
    AddsOnly P s ((newChainStep s c).state) := by
  unfold newChainStep
  cases hg : getChain s "filter" c with
  | none =>
    rw [iptNewChain_none s _ _ hg]
    have := addsOnly_iptNewChain P s "filter" c
    rwa [iptNewChain_none s _ _ hg] at this
  | some rs =>
    rw [iptNewChain_some s _ _ _ hg]
    exact AddsOnly.arfl P s

/-! Lemmas about the policy loops. -/

/-- Whether any policy of the list targets the pod address. -/
def anyTarget (pod : podInfo) (pols : List networkPolicyInfo) : Bool :=
  pols.any (fun policy => decide (pod.ip ∈ policy.targetPods))

/-- The state carried by a loop outcome. -/
def LoopRes.state : LoopRes → IPT
  | .ok s _ => s
  | .fail s _ => s

theorem ingressPolicyLoop_of_mem {pod : podInfo} {f version : String}
    (pols : List networkPolicyInfo) :
    ∀ (s : IPT) (b : Bool),
    (∀ policy ∈ pols, pod.ip ∈ policy.targetPods →
      ingressPolicyJumpArgs policy version ∈ rulesOf s "filter" f) →
    ingressPolicyLoop pod f version pols s b = .ok s (b || anyTarget pod pols) := by
  induction pols with
  | nil => intro s b _; simp [ingressPolicyLoop, anyTarget]
  | cons policy rest ih =>
    intro s b h
    by_cases ht : pod.ip ∈ policy.targetPods
    · simp only [ingressPolicyLoop, if_pos ht,
        if_pos (iptExists_eq_true_of_mem (h policy (List.mem_cons_self _ _) ht))]
      rw [ih s true (fun p hp htp => h p (List.mem_cons_of_mem _ hp) htp)]
      simp [anyTarget, ht]
    · simp only [ingressPolicyLoop, if_neg ht]
      rw [ih s b (fun p hp htp => h p (List.mem_cons_of_mem _ hp) htp)]
      simp [anyTarget, ht]

theorem ingressPolicyLoop_ok {pod : podInfo} {f version : String}
    (pols : List networkPolicyInfo) :
    ∀ (s : IPT) (b : Bool) (s' : IPT) (b' : Bool),
    chainExists s "filter" f = true →
    ingressPolicyLoop pod f version pols s b = .ok s' b' →
    Mono s s' ∧ chainExists s' "filter" f = true ∧
      (∀ policy ∈ pols, pod.ip ∈ policy.targetPods →
        ingressPolicyJumpArgs policy version ∈ rulesOf s' "filter" f) ∧
      b' = (b || anyTarget pod pols) := by
  induction pols with
  | nil =>
    intro s b s' b' hch h
    simp only [ingressPolicyLoop] at h
    injection h with h1 h2
    subst h1; subst h2
    exact ⟨Mono.mrfl s, hch, fun p hp => absurd hp (List.not_mem_nil p), by
      simp [anyTarget]⟩
  | cons policy rest ih =>
    intro s b s' b' hch h
    by_cases ht : pod.ip ∈ policy.targetPods
    · simp only [ingressPolicyLoop, if_pos ht] at h
      by_cases hex : iptExists s "filter" f (ingressPolicyJumpArgs policy version) = true
      · rw [if_pos hex] at h
        obtain ⟨hm, hch', hall, hb⟩ := ih s true s' b' hch h
        refine ⟨hm, hch', ?_, by simp [hb, anyTarget, ht]⟩
        intro p hp htp
        rcases List.mem_cons.mp hp with rfl | hp'
        · exact hm.2 _ _ _ (mem_of_iptExists_eq_true hex)
        · exact hall p hp' htp
      · rw [if_neg hex] at h
        obtain ⟨rs, hg⟩ := getChain_some_of_chainExists hch
        rw [iptInsert_one_some s _ _ _ rs hg] at h
        have hch2 : chainExists (setChain s "filter" f
            (ingressPolicyJumpArgs policy version :: rs)) "filter" f = true := by
          rw [chainExists_setChain]; exact hch
        obtain ⟨hm, hch', hall, hb⟩ := ih _ true s' b' hch2 h
        have hmono1 := mono_setChain_cons s "filter" f
          (ingressPolicyJumpArgs policy version) rs hg
        refine ⟨hmono1.mtrans hm, hch', ?_, by simp [hb, anyTarget, ht]⟩
        intro p hp htp
        rcases List.mem_cons.mp hp with rfl | hp'
        · refine hm.2 _ _ _ ?_
          rw [rulesOf_setChain_self s _ _ _ hch]
          exact List.mem_cons_self _ _
        · exact hall p hp' htp
    · simp only [ingressPolicyLoop, if_neg ht] at h
      obtain ⟨hm, hch', hall, hb⟩ := ih s b s' b' hch h
      refine ⟨hm, hch', ?_, by simp [hb, anyTarget, ht]⟩
      intro p hp htp
      rcases List.mem_cons.mp hp with rfl | hp'
      · exact absurd htp ht
      · exact hall p hp' htp

theorem mono_ingressPolicyLoop {pod : podInfo} {f version : String}
    (pols : List networkPolicyInfo) :
    ∀ (s : IPT) (b : Bool),
    Mono s ((ingressPolicyLoop pod f version pols s b).state) := by
  induction pols with
  | nil => intro s b; exact Mono.mrfl s
  | cons policy rest ih =>
    intro s b
    by_cases ht : pod.ip ∈ policy.targetPods
    · simp only [ingressPolicyLoop, if_pos ht]
      by_cases hex : iptExists s "filter" f (ingressPolicyJumpArgs policy version) = true
      · rw [if_pos hex]; exact ih s true
      · rw [if_neg hex]
        cases hg : getChain s "filter" f with
        | none =>
          rw [iptInsert_one_none s _ _ _ hg]
          simp only []
          exact ih s true
        | some rs =>
          rw [iptInsert_one_some s _ _ _ rs hg]
          exact (mono_setChain_cons s _ _ _ _ hg).mtrans (ih _ true)
    · simp only [ingressPolicyLoop, if_neg ht]
      exact ih s b

theorem addsOnly_ingressPolicyLoop {P : Rule → Prop} {pod : podInfo} {f version : String}
    (pols : List networkPolicyInfo)
    (hP : ∀ policy ∈ pols, P (ingressPolicyJumpArgs policy version)) :
    ∀ (s : IPT) (b : Bool),
    AddsOnly P s ((ingressPolicyLoop pod f version pols s b).state) := by
  induction pols with
  | nil => intro s b; exact AddsOnly.arfl P s
  | cons policy rest ih =>
    intro s b
    have hPrest : ∀ p ∈ rest, P (ingressPolicyJumpArgs p version) :=
      fun p hp => hP p (List.mem_cons_of_mem _ hp)
    by_cases ht : pod.ip ∈ policy.targetPods
    · simp only [ingressPolicyLoop, if_pos ht]
      by_cases hex : iptExists s "filter" f (ingressPolicyJumpArgs policy version) = true
      · rw [if_pos hex]; exact ih hPrest s true
      · rw [if_neg hex]
        cases hg : getChain s "filter" f with
        | none =>
          rw [iptInsert_one_none s _ _ _ hg]
          simp only []
          exact ih hPrest s true
        | some rs =>
          rw [iptInsert_one_some s _ _ _ rs hg]
          exact (addsOnly_setChain_cons P s _ _ _ _ hg
            (hP policy (List.mem_cons_self _ _))).atrans (ih hPrest _ true)
    · simp only [ingressPolicyLoop, if_neg ht]
      exact ih hPrest s b

/-- The two policy loops are the same function: their source bodies are
character for character identical. -/
theorem egressPolicyLoop_eq {pod : podInfo} {f version : String}
    (pols : List networkPolicyInfo) :
    ∀ (s : IPT) (b : Bool),
    egressPolicyLoop pod f version pols s b = ingressPolicyLoop pod f version pols s b := by
  induction pols with
  | nil => intro s b; rfl
  | cons policy rest ih =>
    intro s b
    have hargs : egressPolicyJumpArgs policy version =
        ingressPolicyJumpArgs policy version := rfl
    by_cases ht : pod.ip ∈ policy.targetPods
    · simp only [egressPolicyLoop, ingressPolicyLoop, if_pos ht, hargs]
      by_cases hex : iptExists s "filter" f (ingressPolicyJumpArgs policy version) = true
      · rw [if_pos hex, if_pos hex, ih]
      · rw [if_neg hex, if_neg hex]
        cases hg : getChain s "filter" f with
        | none => rw [iptInsert_one_none s _ _ _ hg]; simp only []; rw [ih]
        | some rs => rw [iptInsert_one_some s _ _ _ rs hg]; simp only []; rw [ih]
    · simp only [egressPolicyLoop, ingressPolicyLoop, if_neg ht]
      exact ih s b

theorem outboundChainLoop_of_mem {pod : podInfo} {f : String}
    (chains : List String) :
    ∀ (s : IPT),
    (∀ chain ∈ chains, outboundJumpArgs pod f ∈ rulesOf s "filter" chain) →
    outboundChainLoop pod f chains s = .ok s := by
  induction chains with
  | nil => intro s _; rfl
  | cons chain rest ih =>
    intro s h
    simp only [outboundChainLoop]
    rw [checkAppendUnique_of_mem (h chain (List.mem_cons_self _ _))]
    exact ih s (fun c hc => h c (List.mem_cons_of_mem _ hc))

theorem outboundChainLoop_ok {pod : podInfo} {f : String}
    (chains : List String) :
    ∀ (s : IPT) (s' : IPT),
    outboundChainLoop pod f chains s = .ok s' →
    Mono s s' ∧
      (∀ chain ∈ chains, outboundJumpArgs pod f ∈ rulesOf s' "filter" chain) := by
  induction chains with
  | nil =>
    intro s s' h
    simp only [outboundChainLoop] at h
    injection h with h
    subst h
    exact ⟨Mono.mrfl s, fun c hc => absurd hc (List.not_mem_nil c)⟩
  | cons chain rest ih =>
    intro s s' h
    simp only [outboundChainLoop] at h
    cases hr : checkAppendUnique s chain (outboundJumpArgs pod f) with
    | fail s2 m => rw [hr] at h; cases h
    | ok s2 =>
      rw [hr] at h
      obtain ⟨hmem, hm1⟩ := checkAppendUnique_ok hr
      obtain ⟨hm2, hall⟩ := ih s2 s' h
      refine ⟨hm1.mtrans hm2, ?_⟩
      intro c hc
      rcases List.mem_cons.mp hc with rfl | hc'
      · exact hm2.2 _ _ _ hmem
      · exact hall c hc'

theorem mono_outboundChainLoop {pod : podInfo} {f : String}
    (chains : List String) :
    ∀ (s : IPT), Mono s ((outboundChainLoop pod f chains s).state) := by
  induction chains with
  | nil => intro s; exact Mono.mrfl s
  | cons chain rest ih =>
    intro s
    simp only [outboundChainLoop]
    cases hr : checkAppendUnique s chain (outboundJumpArgs pod f) with
    | fail s2 m =>
      have := mono_checkAppendUnique s chain (outboundJumpArgs pod f)
      rw [hr] at this
      exact this
    | ok s2 =>
      have hm1 := mono_checkAppendUnique s chain (outboundJumpArgs pod f)
      rw [hr] at hm1
      exact hm1.mtrans (ih s2)

theorem addsOnly_outboundChainLoop {P : Rule → Prop} {pod : podInfo} {f : String}
    (hP : P (outboundJumpArgs pod f)) (chains : List String) :
    ∀ (s : IPT), AddsOnly P s ((outboundChainLoop pod f chains s).state) := by
  induction chains with
  | nil => intro s; exact AddsOnly.arfl P s
  | cons chain rest ih =>
    intro s
    simp only [outboundChainLoop]
    cases hr : checkAppendUnique s chain (outboundJumpArgs pod f) with
    | fail s2 m =>
      have := addsOnly_checkAppendUnique P s chain (outboundJumpArgs pod f) hP
      rw [hr] at this
      exact this
    | ok s2 =>
      have hm1 := addsOnly_checkAppendUnique P s chain (outboundJumpArgs pod f) hP
      rw [hr] at hm1
      exact hm1.atrans (ih s2)

/-! Lemmas about the ingress and egress rule builders. -/

theorem setupPodIngressRules_of_established {pod : podInfo} {f : String}
    {pols : List networkPolicyInfo} {version : String} {s : IPT}
    (hjump : ∀ policy ∈ pols, pod.ip ∈ policy.targetPods →
      ingressPolicyJumpArgs policy version ∈ rulesOf s "filter" f)
    (hdef : anyTarget pod pols = false →
      defaultIngressJumpArgs pod ∈ rulesOf s "filter" f)
    (hallow : localNodeAllowArgs pod ∈ rulesOf s "filter" f)
    (hstateful : statefulFirewallArgs ∈ rulesOf s "filter" f) :
    setupPodIngressRules pod f pols version s = .ok s := by
  unfold setupPodIngressRules
  rw [ingressPolicyLoop_of_mem pols s false hjump]
  cases hat : anyTarget pod pols with
  | false =>
    show (((if (false || false : Bool) then StepRes.ok s
        else checkInsertTol s f (defaultIngressJumpArgs pod))).andThen _) = _
    rw [if_neg (by simp)]
    rw [checkInsertTol_of_mem (hdef hat), StepRes.andThen_okArg,
      checkInsert_of_mem hallow, StepRes.andThen_okArg, checkInsert_of_mem hstateful]
  | true =>
    show (((if (false || true : Bool) then StepRes.ok s
        else checkInsertTol s f (defaultIngressJumpArgs pod))).andThen _) = _
    rw [if_pos (by simp), StepRes.andThen_okArg,
      checkInsert_of_mem hallow, StepRes.andThen_okArg, checkInsert_of_mem hstateful]

theorem setupPodIngressRules_ok {pod : podInfo} {f : String}
    {pols : List networkPolicyInfo} {version : String} {s s' : IPT}
    (hch : chainExists s "filter" f = true)
    (h : setupPodIngressRules pod f pols version s = .ok s') :
    Mono s s' ∧ chainExists s' "filter" f = true ∧
      (∀ policy ∈ pols, pod.ip ∈ policy.targetPods →
        ingressPolicyJumpArgs policy version ∈ rulesOf s' "filter" f) ∧
      (anyTarget pod pols = false →
        defaultIngressJumpArgs pod ∈ rulesOf s' "filter" f) ∧
      localNodeAllowArgs pod ∈ rulesOf s' "filter" f ∧
      statefulFirewallArgs ∈ rulesOf s' "filter" f := by
  unfold setupPodIngressRules at h
  cases hr : ingressPolicyLoop pod f version pols s false with
  | fail s2 m => rw [hr] at h; cases h
  | ok s2 present =>
    rw [hr] at h
    obtain ⟨hm1, hch2, hjumps, hpres⟩ := ingressPolicyLoop_ok pols s false s2 present hch hr
    replace h : ((if present then StepRes.ok s2
        else checkInsertTol s2 f (defaultIngressJumpArgs pod)).andThen
          (fun s3 => (checkInsert s3 f (localNodeAllowArgs pod)).andThen
            (fun s4 => checkInsert s4 f statefulFirewallArgs))) = .ok s' := h
    rw [StepRes.andThen_eq_ok] at h
    obtain ⟨s3, h1, h2⟩ := h
    rw [StepRes.andThen_eq_ok] at h2
    obtain ⟨s4, h3, h4⟩ := h2
    obtain ⟨ha_mem, hm3⟩ := checkInsert_ok h3
    obtain ⟨hs_mem, hm4⟩ := checkInsert_ok h4
    cases present with
    | true =>
      rw [if_pos rfl] at h1
      injection h1 with h1
      subst h1
      have hat : anyTarget pod pols = true := by
        cases hat : anyTarget pod pols with
        | true => rfl
        | false => rw [hat] at hpres; cases hpres
      have hm : Mono s s' := hm1.mtrans (hm3.mtrans hm4)
      have hm2' : Mono s2 s' := hm3.mtrans hm4
      refine ⟨hm, hm2'.1 _ _ hch2, ?_, ?_, hm4.2 _ _ _ ha_mem, hs_mem⟩
      · intro p hp htp
        exact hm2'.2 _ _ _ (hjumps p hp htp)
      · intro hat'
        rw [hat] at hat'; cases hat'
    | false =>
      rw [if_neg (by simp)] at h1
      obtain ⟨hd_mem, hm2⟩ := checkInsertTol_ok hch2 h1
      have hat : anyTarget pod pols = false := by
        cases hat : anyTarget pod pols with
        | false => rfl
        | true => rw [hat] at hpres; cases hpres
      have hm34 : Mono s3 s' := hm3.mtrans hm4
      have hm2' : Mono s2 s' := hm2.mtrans hm34
      refine ⟨hm1.mtrans hm2', hm2'.1 _ _ hch2, ?_, ?_, hm4.2 _ _ _ ha_mem, hs_mem⟩
      · intro p hp htp
        exact hm2'.2 _ _ _ (hjumps p hp htp)
      · intro _
        exact hm34.2 _ _ _ hd_mem

theorem mono_setupPodIngressRules (pod : podInfo) (f : String)
    (pols : List networkPolicyInfo) (version : String) (s : IPT) :
    Mono s ((setupPodIngressRules pod f pols version s).state) := by
  unfold setupPodIngressRules
  cases hr : ingressPolicyLoop pod f version pols s false with
  | fail s2 m =>
    have := @mono_ingressPolicyLoop pod f version pols s false
    rw [hr] at this
    exact this
  | ok s2 present =>
    have hm1 := @mono_ingressPolicyLoop pod f version pols s false
    rw [hr] at hm1
    refine Mono.mtrans (hm1 : Mono s s2) (mono_andThen ?_ ?_)
    · cases present with
      | true => rw [if_pos rfl]; exact Mono.mrfl s2
      | false => rw [if_neg (by simp)]; exact mono_checkInsertTol s2 f _
    · intro s3
      exact mono_andThen (mono_checkInsert s3 f _) (fun s4 => mono_checkInsert s4 f _)

theorem addsOnly_setupPodIngressRules (P : Rule → Prop) (pod : podInfo) (f : String)
    (pols : List networkPolicyInfo) (version : String) (s : IPT)
    (hPj : ∀ policy ∈ pols, P (ingressPolicyJumpArgs policy version))
    (hPd : P (defaultIngressJumpArgs pod))
    (hPa : P (localNodeAllowArgs pod))
    (hPs : P statefulFirewallArgs) :
    AddsOnly P s ((setupPodIngressRules pod f pols version s).state) := by
  unfold setupPodIngressRules
  cases hr : ingressPolicyLoop pod f version pols s false with
  | fail s2 m =>
    have := @addsOnly_ingressPolicyLoop P pod f version pols hPj s false
    rw [hr] at this
    exact this
  | ok s2 present =>
    have hm1 := @addsOnly_ingressPolicyLoop P pod f version pols hPj s false
    rw [hr] at hm1
    refine AddsOnly.atrans (hm1 : AddsOnly P s s2) (addsOnly_andThen ?_ ?_)
    · cases present with
      | true => rw [if_pos rfl]; exact AddsOnly.arfl P s2
      | false => rw [if_neg (by simp)]; exact addsOnly_checkInsertTol P s2 f _ hPd
    · intro s3
      exact addsOnly_andThen (addsOnly_checkInsert P s3 f _ hPa)
        (fun s4 => addsOnly_checkInsert P s4 f _ hPs)

theorem setupPodEgressRules_of_established {pod : podInfo} {f : String}
    {pols : List networkPolicyInfo} {version : String} {s : IPT}
    (hjump : ∀ policy ∈ pols, pod.ip ∈ policy.targetPods →
      egressPolicyJumpArgs policy version ∈ rulesOf s "filter" f)
    (hdef : anyTarget pod pols = false →
      defaultEgressJumpArgs pod ∈ rulesOf s "filter" f)
    (hstateful : statefulFirewallArgs ∈ rulesOf s "filter" f) :
    setupPodEgressRules pod f pols version s = .ok s := by
  unfold setupPodEgressRules
  rw [egressPolicyLoop_eq, ingressPolicyLoop_of_mem pols s false hjump]
  cases hat : anyTarget pod pols with
  | false =>
    show (((if (false || false : Bool) then StepRes.ok s
        else checkInsertTol s f (defaultEgressJumpArgs pod))).andThen _) = _
    rw [if_neg (by simp)]
    rw [checkInsertTol_of_mem (hdef hat), StepRes.andThen_okArg,
      checkInsert_of_mem hstateful]
  | true =>
    show (((if (false || true : Bool) then StepRes.ok s
        else checkInsertTol s f (defaultEgressJumpArgs pod))).andThen _) = _
    rw [if_pos (by simp), StepRes.andThen_okArg, checkInsert_of_mem hstateful]

theorem setupPodEgressRules_ok {pod : podInfo} {f : String}
    {pols : List networkPolicyInfo} {version : String} {s s' : IPT}
    (hch : chainExists s "filter" f = true)
    (h : setupPodEgressRules pod f pols version s = .ok s') :
    Mono s s' ∧ chainExists s' "filter" f = true ∧
      (∀ policy ∈ pols, pod.ip ∈ policy.targetPods →
        egressPolicyJumpArgs policy version ∈ rulesOf s' "filter" f) ∧
      (anyTarget pod pols = false →
        defaultEgressJumpArgs pod ∈ rulesOf s' "filter" f) ∧
      statefulFirewallArgs ∈ rulesOf s' "filter" f := by
  unfold setupPodEgressRules at h
  rw [egressPolicyLoop_eq] at h
  cases hr : ingressPolicyLoop pod f version pols s false with
  | fail s2 m => rw [hr] at h; cases h
  | ok s2 present =>
    rw [hr] at h
    obtain ⟨hm1, hch2, hjumps, hpres⟩ := ingressPolicyLoop_ok pols s false s2 present hch hr
    replace h : ((if present then StepRes.ok s2
        else checkInsertTol s2 f (defaultEgressJumpArgs pod)).andThen
          (fun s3 => checkInsert s3 f statefulFirewallArgs)) = .ok s' := h
    rw [StepRes.andThen_eq_ok] at h
    obtain ⟨s3, h1, h3⟩ := h
    obtain ⟨hs_mem, hm3⟩ := checkInsert_ok h3
    cases present with
    | true =>
      rw [if_pos rfl] at h1
      injection h1 with h1
      subst h1
      have hat : anyTarget pod pols = true := by
        cases hat : anyTarget pod pols with
        | true => rfl
        | false => rw [hat] at hpres; cases hpres
      refine ⟨hm1.mtrans hm3, hm3.1 _ _ hch2, ?_, ?_, hs_mem⟩
      · intro p hp htp
        exact hm3.2 _ _ _ (hjumps p hp htp)
      · intro hat'
        rw [hat] at hat'; cases hat'
    | false =>
      rw [if_neg (by simp)] at h1
      obtain ⟨hd_mem, hm2⟩ := checkInsertTol_ok hch2 h1
      have hm2' : Mono s2 s' := hm2.mtrans hm3
      refine ⟨hm1.mtrans hm2', hm2'.1 _ _ hch2, ?_, ?_, hs_mem⟩
      · intro p hp htp
        exact hm2'.2 _ _ _ (hjumps p hp htp)
      · intro _
        exact hm3.2 _ _ _ hd_mem

theorem mono_setupPodEgressRules (pod : podInfo) (f : String)
    (pols : List networkPolicyInfo) (version : String) (s : IPT) :
    Mono s ((setupPodEgressRules pod f pols version s).state) := by
  unfold setupPodEgressRules
  rw [egressPolicyLoop_eq]
  cases hr : ingressPolicyLoop pod f version pols s false with
  | fail s2 m =>
    have := @mono_ingressPolicyLoop pod f version pols s false
    rw [hr] at this
    exact this
  | ok s2 present =>
    have hm1 := @mono_ingressPolicyLoop pod f version pols s false
    rw [hr] at hm1
    refine Mono.mtrans (hm1 : Mono s s2) (mono_andThen ?_ ?_)
    · cases present with
      | true => rw [if_pos rfl]; exact Mono.mrfl s2
      | false => rw [if_neg (by simp)]; exact mono_checkInsertTol s2 f _
    · intro s3
      exact mono_checkInsert s3 f _

theorem addsOnly_setupPodEgressRules (P : Rule → Prop) (pod : podInfo) (f : String)
    (pols : List networkPolicyInfo) (version : String) (s : IPT)
    (hPj : ∀ policy ∈ pols, P (egressPolicyJumpArgs policy version))
    (hPd : P (defaultEgressJumpArgs pod))
    (hPs : P statefulFirewallArgs) :
    AddsOnly P s ((setupPodEgressRules pod f pols version s).state) := by
  unfold setupPodEgressRules
  rw [egressPolicyLoop_eq]
  cases hr : ingressPolicyLoop pod f version pols s false with
  | fail s2 m =>
    have := @addsOnly_ingressPolicyLoop P pod f version pols hPj s false
    rw [hr] at this
    exact this
  | ok s2 present =>
    have hm1 := @addsOnly_ingressPolicyLoop P pod f version pols hPj s false
    rw [hr] at hm1
    refine AddsOnly.atrans (hm1 : AddsOnly P s s2) (addsOnly_andThen ?_ ?_)
    · cases present with
      | true => rw [if_pos rfl]; exact AddsOnly.arfl P s2
      | false => rw [if_neg (by simp)]; exact addsOnly_checkInsertTol P s2 f _ hPd
    · intro s3
      exact addsOnly_checkInsert P s3 f _ hPs

/-! Lemmas about interception and the drop tail. -/

theorem interceptPodInboundTraffic_of_established {pod : podInfo} {f : String} {s : IPT}
    (h1 : inboundJumpArgs pod f ∈ rulesOf s "filter" kubeForwardChainName)
    (h2 : inboundJumpArgs pod f ∈ rulesOf s "filter" kubeOutputChainName)
    (h3 : inboundBridgedJumpArgs pod f ∈ rulesOf s "filter" kubeForwardChainName) :
    interceptPodInboundTraffic pod f s = .ok s := by
  unfold interceptPodInboundTraffic
  rw [checkInsert_of_mem h1, StepRes.andThen_okArg, checkInsert_of_mem h2,
    StepRes.andThen_okArg, checkInsert_of_mem h3]

theorem interceptPodInboundTraffic_ok {pod : podInfo} {f : String} {s s' : IPT}
    (h : interceptPodInboundTraffic pod f s = .ok s') :
    Mono s s' ∧
      inboundJumpArgs pod f ∈ rulesOf s' "filter" kubeForwardChainName ∧
      inboundJumpArgs pod f ∈ rulesOf s' "filter" kubeOutputChainName ∧
      inboundBridgedJumpArgs pod f ∈ rulesOf s' "filter" kubeForwardChainName := by
  unfold interceptPodInboundTraffic at h
  rw [StepRes.andThen_eq_ok] at h
  obtain ⟨s2, h1, h⟩ := h
  rw [StepRes.andThen_eq_ok] at h
  obtain ⟨s3, h2, h3⟩ := h
  obtain ⟨m1, hm1⟩ := checkInsert_ok h1
  obtain ⟨m2, hm2⟩ := checkInsert_ok h2
  obtain ⟨m3, hm3⟩ := checkInsert_ok h3
  have hm23 : Mono s2 s' := hm2.mtrans hm3
  exact ⟨hm1.mtrans hm23, hm23.2 _ _ _ m1, hm3.2 _ _ _ m2, m3⟩

theorem mono_interceptPodInboundTraffic (pod : podInfo) (f : String) (s : IPT) :
    Mono s ((interceptPodInboundTraffic pod f s).state) := by
  unfold interceptPodInboundTraffic
  exact mono_andThen (mono_checkInsert s _ _)
    (fun s2 => mono_andThen (mono_checkInsert s2 _ _)
      (fun s3 => mono_checkInsert s3 _ _))

theorem addsOnly_interceptPodInboundTraffic (P : Rule → Prop) (pod : podInfo)
    (f : String) (s : IPT)
    (hP1 : P (inboundJumpArgs pod f)) (hP2 : P (inboundBridgedJumpArgs pod f)) :
    AddsOnly P s ((interceptPodInboundTraffic pod f s).state) := by
  unfold interceptPodInboundTraffic
  exact addsOnly_andThen (addsOnly_checkInsert P s _ _ hP1)
    (fun s2 => addsOnly_andThen (addsOnly_checkInsert P s2 _ _ hP1)
      (fun s3 => addsOnly_checkInsert P s3 _ _ hP2))

theorem interceptPodOutboundTraffic_of_established {pod : podInfo} {f : String} {s : IPT}
    (h1 : outboundJumpArgs pod f ∈ rulesOf s "filter" kubeInputChainName)
    (h2 : outboundJumpArgs pod f ∈ rulesOf s "filter" kubeForwardChainName)
    (h3 : outboundJumpArgs pod f ∈ rulesOf s "filter" kubeOutputChainName)
    (h4 : outboundBridgedJumpArgs pod f ∈ rulesOf s "filter" kubeForwardChainName) :
    interceptPodOutboundTraffic pod f s = .ok s := by
  unfold interceptPodOutboundTraffic
  rw [outboundChainLoop_of_mem _ s ?_, StepRes.andThen_okArg, checkInsert_of_mem h4]
  intro chain hc
  rcases List.mem_cons.mp hc with rfl | hc'
  · exact h1
  rcases List.mem_cons.mp hc' with rfl | hc''
  · exact h2
  rcases List.mem_cons.mp hc'' with rfl | hc'''
  · exact h3
  · exact absurd hc''' (List.not_mem_nil _)

theorem interceptPodOutboundTraffic_ok {pod : podInfo} {f : String} {s s' : IPT}
    (h : interceptPodOutboundTraffic pod f s = .ok s') :
    Mono s s' ∧
      outboundJumpArgs pod f ∈ rulesOf s' "filter" kubeInputChainName ∧
      outboundJumpArgs pod f ∈ rulesOf s' "filter" kubeForwardChainName ∧
      outboundJumpArgs pod f ∈ rulesOf s' "filter" kubeOutputChainName ∧
      outboundBridgedJumpArgs pod f ∈ rulesOf s' "filter" kubeForwardChainName := by
  unfold interceptPodOutboundTraffic at h
  rw [StepRes.andThen_eq_ok] at h
  obtain ⟨s2, h1, h2⟩ := h
  obtain ⟨hm1, hall⟩ := outboundChainLoop_ok _ s s2 h1
  obtain ⟨m4, hm2⟩ := checkInsert_ok h2
  refine ⟨hm1.mtrans hm2, ?_, ?_, ?_, m4⟩
  · exact hm2.2 _ _ _ (hall _ (List.mem_cons_self _ _))
  · exact hm2.2 _ _ _ (hall _ (List.mem_cons_of_mem _ (List.mem_cons_self _ _)))
  · exact hm2.2 _ _ _
      (hall _ (List.mem_cons_of_mem _ (List.mem_cons_of_mem _ (List.mem_cons_self _ _))))

theorem mono_interceptPodOutboundTraffic (pod : podInfo) (f : String) (s : IPT) :
    Mono s ((interceptPodOutboundTraffic pod f s).state) := by
  unfold interceptPodOutboundTraffic
  exact mono_andThen (mono_outboundChainLoop _ s) (fun s2 => mono_checkInsert s2 _ _)

theorem addsOnly_interceptPodOutboundTraffic (P : Rule → Prop) (pod : podInfo)
    (f : String) (s : IPT)
    (hP1 : P (outboundJumpArgs pod f)) (hP2 : P (outboundBridgedJumpArgs pod f)) :
    AddsOnly P s ((interceptPodOutboundTraffic pod f s).state) := by
  unfold interceptPodOutboundTraffic
  exact addsOnly_andThen (addsOnly_outboundChainLoop hP1 _ s)
    (fun s2 => addsOnly_checkInsert P s2 _ _ hP2)

theorem dropUnmarkedTrafficRules_of_established {podName podNamespace f : String}
    {s : IPT}
    (h1 : logDropArgs podName podNamespace ∈ rulesOf s "filter" f)
    (h2 : rejectArgs podName podNamespace ∈ rulesOf s "filter" f) :
    dropUnmarkedTrafficRules podName podNamespace f s = .ok s := by
  unfold dropUnmarkedTrafficRules
  rw [appendUniqueStep_of_mem h1, StepRes.andThen_okArg, appendUniqueStep_of_mem h2]

theorem dropUnmarkedTrafficRules_ok {podName podNamespace f : String} {s s' : IPT}
    (h : dropUnmarkedTrafficRules podName podNamespace f s = .ok s') :
    Mono s s' ∧
      logDropArgs podName podNamespace ∈ rulesOf s' "filter" f ∧
      rejectArgs podName podNamespace ∈ rulesOf s' "filter" f := by
  unfold dropUnmarkedTrafficRules at h
  rw [StepRes.andThen_eq_ok] at h
  obtain ⟨s2, h1, h2⟩ := h
  obtain ⟨m1, hm1⟩ := appendUniqueStep_ok h1
  obtain ⟨m2, hm2⟩ := appendUniqueStep_ok h2
  exact ⟨hm1.mtrans hm2, hm2.2 _ _ _ m1, m2⟩

theorem mono_dropUnmarkedTrafficRules (podName podNamespace f : String) (s : IPT) :
    Mono s ((dropUnmarkedTrafficRules podName podNamespace f s).state) := by
  unfold dropUnmarkedTrafficRules
  exact mono_andThen (mono_appendUniqueStep s _ _) (fun s2 => mono_appendUniqueStep s2 _ _)

theorem addsOnly_dropUnmarkedTrafficRules (P : Rule → Prop)
    (podName podNamespace f : String) (s : IPT)
    (hP1 : P (logDropArgs podName podNamespace))
    (hP2 : P (rejectArgs podName podNamespace)) :
    AddsOnly P s ((dropUnmarkedTrafficRules podName podNamespace f s).state) := by
  unfold dropUnmarkedTrafficRules
  exact addsOnly_andThen (addsOnly_appendUniqueStep P s _ _ hP1)
    (fun s2 => addsOnly_appendUniqueStep P s2 _ _ hP2)

/-! The per-pod establishment predicate: every rule the per-pod body of the
synchronizer ensures is present, together with existence of the pod chain.
All conjuncts are rule memberships, so the predicate is preserved by Mono
evolution. -/

def podRulesEstablished (pols : List networkPolicyInfo) (version : String)
    (pod : podInfo) (f : String) (s : IPT) : Prop :=
  chainExists s "filter" f = true ∧
  (∀ policy ∈ pols, pod.ip ∈ policy.targetPods →
    ingressPolicyJumpArgs policy version ∈ rulesOf s "filter" f) ∧
  (anyTarget pod pols = false →
    defaultIngressJumpArgs pod ∈ rulesOf s "filter" f ∧
    defaultEgressJumpArgs pod ∈ rulesOf s "filter" f) ∧
  localNodeAllowArgs pod ∈ rulesOf s "filter" f ∧
  statefulFirewallArgs ∈ rulesOf s "filter" f ∧
  inboundJumpArgs pod f ∈ rulesOf s "filter" kubeForwardChainName ∧
  inboundJumpArgs pod f ∈ rulesOf s "filter" kubeOutputChainName ∧
  inboundBridgedJumpArgs pod f ∈ rulesOf s "filter" kubeForwardChainName ∧
  outboundJumpArgs pod f ∈ rulesOf s "filter" kubeInputChainName ∧
  outboundJumpArgs pod f ∈ rulesOf s "filter" kubeForwardChainName ∧
  outboundJumpArgs pod f ∈ rulesOf s "filter" kubeOutputChainName ∧
  outboundBridgedJumpArgs pod f ∈ rulesOf s "filter" kubeForwardChainName ∧
  logDropArgs pod.name pod.nspace ∈ rulesOf s "filter" f ∧
  rejectArgs pod.name pod.nspace ∈ rulesOf s "filter" f ∧
  markResetArgs ∈ rulesOf s "filter" f ∧
  markAcceptArgs ∈ rulesOf s "filter" f

theorem podRulesEstablished_mono {pols : List networkPolicyInfo} {version : String}
    {pod : podInfo} {f : String} {s s' : IPT}
    (h : podRulesEstablished pols version pod f s) (hm : Mono s s') :
    podRulesEstablished pols version pod f s' := by
  obtain ⟨c1, c2, c3, c4, c5, c6, c7, c8, c9, c10, c11, c12, c13, c14, c15, c16⟩ := h
  exact ⟨hm.1 _ _ c1,
    fun p hp htp => hm.2 _ _ _ (c2 p hp htp),
    fun hat => ⟨hm.2 _ _ _ (c3 hat).1, hm.2 _ _ _ (c3 hat).2⟩,
    hm.2 _ _ _ c4, hm.2 _ _ _ c5, hm.2 _ _ _ c6, hm.2 _ _ _ c7, hm.2 _ _ _ c8,
    hm.2 _ _ _ c9, hm.2 _ _ _ c10, hm.2 _ _ _ c11, hm.2 _ _ _ c12,
    hm.2 _ _ _ c13, hm.2 _ _ _ c14, hm.2 _ _ _ c15, hm.2 _ _ _ c16⟩

theorem syncPodSteps_of_established {pols : List networkPolicyInfo} {version : String}
    {pod : podInfo} {f : String} {s : IPT}
    (h : podRulesEstablished pols version pod f s) :
    syncPodSteps pols version pod f s = .ok s := by
  obtain ⟨c1, c2, c3, c4, c5, c6, c7, c8, c9, c10, c11, c12, c13, c14, c15, c16⟩ := h
  unfold syncPodSteps
  rw [newChainStep_of_exists c1, StepRes.andThen_okArg,
    setupPodIngressRules_of_established c2 (fun hat => (c3 hat).1) c4 c5,
    StepRes.andThen_okArg,
    setupPodEgressRules_of_established c2 (fun hat => (c3 hat).2) c5,
    StepRes.andThen_okArg,
    interceptPodInboundTraffic_of_established c6 c7 c8,
    StepRes.andThen_okArg,
    interceptPodOutboundTraffic_of_established c9 c10 c11 c12,
    StepRes.andThen_okArg,
    dropUnmarkedTrafficRules_of_established c13 c14,
    StepRes.andThen_okArg,
    appendUniqueStep_of_mem c15, StepRes.andThen_okArg, appendUniqueStep_of_mem c16]

theorem syncPodSteps_ok {pols : List networkPolicyInfo} {version : String}
    {pod : podInfo} {f : String} {s s' : IPT}
    (h : syncPodSteps pols version pod f s = .ok s') :
    Mono s s' ∧ podRulesEstablished pols version pod f s' := by
  unfold syncPodSteps at h
  rw [StepRes.andThen_eq_ok] at h
  obtain ⟨s7, h, hAcc⟩ := h
  rw [StepRes.andThen_eq_ok] at h
  obtain ⟨s6, h, hRes⟩ := h
  rw [StepRes.andThen_eq_ok] at h
  obtain ⟨s5, h, hDrop⟩ := h
  rw [StepRes.andThen_eq_ok] at h
  obtain ⟨s4, h, hOut⟩ := h
  rw [StepRes.andThen_eq_ok] at h
  obtain ⟨s3, h, hIn⟩ := h
  rw [StepRes.andThen_eq_ok] at h
  obtain ⟨s2, h, hEg⟩ := h
  rw [StepRes.andThen_eq_ok] at h
  obtain ⟨s1, hNew, hIng⟩ := h
  obtain ⟨hch1, hmN, _⟩ := newChainStep_ok hNew
  obtain ⟨hmI, hchI, hjumps, hdefI, hallow, hstate⟩ := setupPodIngressRules_ok hch1 hIng
  obtain ⟨hmE, hchE, hjumpsE, hdefE, hstateE⟩ := setupPodEgressRules_ok hchI hEg
  obtain ⟨hmIn, hin1, hin2, hin3⟩ := interceptPodInboundTraffic_ok hIn
  obtain ⟨hmOut, hout1, hout2, hout3, hout4⟩ := interceptPodOutboundTraffic_ok hOut
  obtain ⟨hmD, hlog, hrej⟩ := dropUnmarkedTrafficRules_ok hDrop
  obtain ⟨hres, hmR⟩ := appendUniqueStep_ok hRes
  obtain ⟨hacc, hmA⟩ := appendUniqueStep_ok hAcc
  have m7' : Mono s7 s' := hmA
  have m6' : Mono s6 s' := hmR.mtrans m7'
  have m5' : Mono s5 s' := hmD.mtrans m6'
  have m4' : Mono s4 s' := hmOut.mtrans m5'
  have m3' : Mono s3 s' := hmIn.mtrans m4'
  have m2' : Mono s2 s' := hmE.mtrans m3'
  have m1' : Mono s1 s' := hmI.mtrans m2'
  refine ⟨hmN.mtrans m1', m3'.1 _ _ hchE, ?_, ?_, m2'.2 _ _ _ hallow, m2'.2 _ _ _ hstate,
    m4'.2 _ _ _ hin1, m4'.2 _ _ _ hin2, m4'.2 _ _ _ hin3,
    m5'.2 _ _ _ hout1, m5'.2 _ _ _ hout2, m5'.2 _ _ _ hout3, m5'.2 _ _ _ hout4,
    m6'.2 _ _ _ hlog, m6'.2 _ _ _ hrej, m7'.2 _ _ _ hres, hacc⟩
  · intro p hp htp
    exact m2'.2 _ _ _ (hjumps p hp htp)
  · intro hat
    exact ⟨m2'.2 _ _ _ (hdefI hat), m3'.2 _ _ _ (hdefE hat)⟩

theorem mono_syncPodSteps (pols : List networkPolicyInfo) (version : String)
    (pod : podInfo) (f : String) (s : IPT) :
    Mono s ((syncPodSteps pols version pod f s).state) := by
  unfold syncPodSteps
  refine mono_andThen (mono_andThen (mono_andThen (mono_andThen (mono_andThen
    (mono_andThen (mono_andThen (mono_newChainStep s f) ?_) ?_) ?_) ?_) ?_) ?_) ?_
  · intro s2; exact mono_setupPodIngressRules pod f pols version s2
  · intro s3; exact mono_setupPodEgressRules pod f pols version s3
  · intro s4; exact mono_interceptPodInboundTraffic pod f s4
  · intro s5; exact mono_interceptPodOutboundTraffic pod f s5
  · intro s6; exact mono_dropUnmarkedTrafficRules pod.name pod.nspace f s6
  · intro s7; exact mono_appendUniqueStep s7 f markResetArgs
  · intro s8; exact mono_appendUniqueStep s8 f markAcceptArgs

/-! The comment invariant: every rule the synchronizer installs except the
mark-reset rule carries a "--comment" annotation. -/

/-- A rule specification carrying an embedded comment annotation. -/
def hasCommentClause (r : Rule) : Prop := "--comment" ∈ r

theorem addsOnly_syncPodSteps (pols : List networkPolicyInfo) (version : String)
    (pod : podInfo) (f : String) (s : IPT) :
    AddsOnly (fun r => hasCommentClause r ∨ r = markResetArgs) s
      ((syncPodSteps pols version pod f s).state) := by
  unfold syncPodSteps
  refine addsOnly_andThen (addsOnly_andThen (addsOnly_andThen (addsOnly_andThen
    (addsOnly_andThen (addsOnly_andThen (addsOnly_andThen
      (addsOnly_newChainStep _ s f) ?_) ?_) ?_) ?_) ?_) ?_) ?_
  · intro s2
    refine addsOnly_setupPodIngressRules _ pod f pols version s2 ?_ ?_ ?_ ?_
    · intro policy _
      exact Or.inl (by simp [hasCommentClause, ingressPolicyJumpArgs])
    · exact Or.inl (by simp [hasCommentClause, defaultIngressJumpArgs])
    · exact Or.inl (by simp [hasCommentClause, localNodeAllowArgs])
    · exact Or.inl (by simp [hasCommentClause, statefulFirewallArgs])
  · intro s3
    refine addsOnly_setupPodEgressRules _ pod f pols version s3 ?_ ?_ ?_
    · intro policy _
      exact Or.inl (by simp [hasCommentClause, egressPolicyJumpArgs])
    · exact Or.inl (by simp [hasCommentClause, defaultEgressJumpArgs])
    · exact Or.inl (by simp [hasCommentClause, statefulFirewallArgs])
  · intro s4
    refine addsOnly_interceptPodInboundTraffic _ pod f s4 ?_ ?_
    · exact Or.inl (by simp [hasCommentClause, inboundJumpArgs])
    · exact Or.inl (by simp [hasCommentClause, inboundBridgedJumpArgs])
  · intro s5
    refine addsOnly_interceptPodOutboundTraffic _ pod f s5 ?_ ?_
    · exact Or.inl (by simp [hasCommentClause, outboundJumpArgs])
    · exact Or.inl (by simp [hasCommentClause, outboundBridgedJumpArgs])
  · intro s6
    refine addsOnly_dropUnmarkedTrafficRules _ pod.name pod.nspace f s6 ?_ ?_
    · exact Or.inl (by simp [hasCommentClause, logDropArgs])
    · exact Or.inl (by simp [hasCommentClause, rejectArgs])
  · intro s7
    exact addsOnly_appendUniqueStep _ s7 f markResetArgs (Or.inr rfl)
  · intro s8
    exact addsOnly_appendUniqueStep _ s8 f markAcceptArgs
      (Or.inl (by simp [hasCommentClause, markAcceptArgs]))

/-! Lemmas about the pod loop of the synchronizer. -/

/-- The active set accumulated over a pod list, as the loop builds it. -/
def activeFold (version : String) (pods : List podInfo)
    (active : List (String × Bool)) : List (String × Bool) :=
  pods.foldl
    (fun a pod => activeSetInsert a (podFirewallChainName pod.nspace pod.name version))
    active

theorem syncLoop_shape (pols : List networkPolicyInfo) (version : String) :
    ∀ (pods : List podInfo) (s : IPT) (active : List (String × Bool)),
    ((syncLoop pols version pods s active).2.2 = none ∧
      ∃ A, (syncLoop pols version pods s active).2.1 = some A) ∨
    ((syncLoop pols version pods s active).2.1 = none ∧
      ∃ e, (syncLoop pols version pods s active).2.2 = some e) := by
  intro pods
  induction pods with
  | nil => intro s active; exact Or.inl ⟨rfl, active, rfl⟩
  | cons pod rest ih =>
    intro s active
    simp only [syncLoop]
    cases hr : syncPodSteps pols version pod
        (podFirewallChainName pod.nspace pod.name version) s with
    | fail sf m => exact Or.inr ⟨rfl, m, rfl⟩
    | ok s2 => exact ih s2 _

theorem syncLoop_ok (pols : List networkPolicyInfo) (version : String) :
    ∀ (pods : List podInfo) (s : IPT) (active : List (String × Bool))
      (s' : IPT) (A : List (String × Bool)),
    syncLoop pols version pods s active = (s', some A, none) →
    Mono s s' ∧
      (∀ pod ∈ pods, podRulesEstablished pols version pod
        (podFirewallChainName pod.nspace pod.name version) s') ∧
      A = activeFold version pods active := by
  intro pods
  induction pods with
  | nil =>
    intro s active s' A h
    simp only [syncLoop, Prod.mk.injEq, Option.some.injEq] at h
    obtain ⟨rfl, rfl, -⟩ := h
    exact ⟨Mono.mrfl s, fun p hp => absurd hp (List.not_mem_nil p), rfl⟩
  | cons pod rest ih =>
    intro s active s' A h
    simp only [syncLoop] at h
    cases hr : syncPodSteps pols version pod
        (podFirewallChainName pod.nspace pod.name version) s with
    | fail sf m =>
      rw [hr] at h
      simp only [Prod.mk.injEq] at h
      cases h.2.1
    | ok s2 =>
      rw [hr] at h
      obtain ⟨hm2, hall, hA⟩ := ih s2 _ s' A h
      obtain ⟨hm1, hest⟩ := syncPodSteps_ok hr
      refine ⟨hm1.mtrans hm2, ?_, hA⟩
      intro p hp
      rcases List.mem_cons.mp hp with rfl | hp'
      · exact podRulesEstablished_mono hest hm2
      · exact hall p hp'

theorem syncLoop_of_established (pols : List networkPolicyInfo) (version : String) :
    ∀ (pods : List podInfo) (s : IPT) (active : List (String × Bool)),
    (∀ pod ∈ pods, podRulesEstablished pols version pod
      (podFirewallChainName pod.nspace pod.name version) s) →
    syncLoop pols version pods s active = (s, some (activeFold version pods active), none) := by
  intro pods
  induction pods with
  | nil => intro s active _; rfl
  | cons pod rest ih =>
    intro s active h
    simp only [syncLoop]
    rw [syncPodSteps_of_established (h pod (List.mem_cons_self _ _))]
    exact ih s _ (fun p hp => h p (List.mem_cons_of_mem _ hp))

theorem mono_syncLoop (pols : List networkPolicyInfo) (version : String) :
    ∀ (pods : List podInfo) (s : IPT) (active : List (String × Bool)),
    Mono s (syncLoop pols version pods s active).1 := by
  intro pods
  induction pods with
  | nil => intro s active; exact Mono.mrfl s
  | cons pod rest ih =>
    intro s active
    simp only [syncLoop]
    cases hr : syncPodSteps pols version pod
        (podFirewallChainName pod.nspace pod.name version) s with
    | fail sf m =>
      have := mono_syncPodSteps pols version pod
        (podFirewallChainName pod.nspace pod.name version) s
      rw [hr] at this
      exact this
    | ok s2 =>
      have hm1 := mono_syncPodSteps pols version pod
        (podFirewallChainName pod.nspace pod.name version) s
      rw [hr] at hm1
      exact Mono.mtrans (hm1 : Mono s s2) (ih s2 _)

theorem addsOnly_syncLoop (pols : List networkPolicyInfo) (version : String) :
    ∀ (pods : List podInfo) (s : IPT) (active : List (String × Bool)),
    AddsOnly (fun r => hasCommentClause r ∨ r = markResetArgs) s
      (syncLoop pols version pods s active).1 := by
  intro pods
  induction pods with
  | nil => intro s active; exact AddsOnly.arfl _ s
  | cons pod rest ih =>
    intro s active
    simp only [syncLoop]
    cases hr : syncPodSteps pols version pod
        (podFirewallChainName pod.nspace pod.name version) s with
    | fail sf m =>
      have := addsOnly_syncPodSteps pols version pod
        (podFirewallChainName pod.nspace pod.name version) s
      rw [hr] at this
      exact this
    | ok s2 =>
      have hm1 := addsOnly_syncPodSteps pols version pod
        (podFirewallChainName pod.nspace pod.name version) s
      rw [hr] at hm1
      exact AddsOnly.atrans
        (hm1 : AddsOnly (fun r => hasCommentClause r ∨ r = markResetArgs) s s2)
        (ih s2 _)

/-! Lemmas about the active chain set. -/

theorem overwrite_keys (m : List (String × Bool)) (k : String) :
    (m.map (fun p => if p.1 = k then (k, true) else p)).map Prod.fst =
      m.map Prod.fst := by
  induction m with
  | nil => rfl
  | cons hd tl ih =>
    simp only [List.map_cons, ih]
    by_cases h : hd.1 = k
    · rw [if_pos h, h]
    · rw [if_neg h]

theorem activeSetInsert_keys (m : List (String × Bool)) (k : String) :
    (activeSetInsert m k).map Prod.fst =
      if m.any (fun p => decide (p.1 = k)) then m.map Prod.fst
      else m.map Prod.fst ++ [k] := by
  unfold activeSetInsert
  by_cases h : m.any (fun p => decide (p.1 = k)) = true
  · rw [if_pos h, if_pos h]
    exact overwrite_keys m k
  · rw [if_neg h, if_neg h, List.map_append]
    rfl

theorem activeSetInsert_values (m : List (String × Bool)) (k : String)
    (h : ∀ kv ∈ m, kv.2 = true) :
    ∀ kv ∈ activeSetInsert m k, kv.2 = true := by
  unfold activeSetInsert
  by_cases hany : m.any (fun p => decide (p.1 = k)) = true
  · rw [if_pos hany]
    intro kv hkv
    obtain ⟨p, hp, rfl⟩ := List.mem_map.mp hkv
    by_cases h1 : p.1 = k
    · rw [if_pos h1]
    · rw [if_neg h1]
      exact h p hp
  · rw [if_neg hany]
    intro kv hkv
    rcases List.mem_append.mp hkv with h1 | h1
    · exact h kv h1
    · rw [List.mem_singleton.mp h1]

theorem activeSetInsert_keys_nodup (m : List (String × Bool)) (k : String)
    (h : (m.map Prod.fst).Nodup) :
    ((activeSetInsert m k).map Prod.fst).Nodup := by
  rw [activeSetInsert_keys]
  by_cases hany : m.any (fun p => decide (p.1 = k)) = true
  · rw [if_pos hany]
    exact h
  · rw [if_neg hany]
    have hk : k ∉ m.map Prod.fst := by
      intro hmem
      obtain ⟨p, hp, hpk⟩ := List.mem_map.mp hmem
      exact hany (List.any_eq_true.mpr ⟨p, hp, by simp [hpk]⟩)
    rw [List.nodup_append]
    exact ⟨h, List.nodup_singleton k, by
      intro a ha hb
      rw [List.mem_singleton.mp hb] at ha
      exact hk ha⟩

theorem activeSetInsert_keys_mem (m : List (String × Bool)) (k k' : String) :
    k' ∈ (activeSetInsert m k).map Prod.fst ↔
      k' ∈ m.map Prod.fst ∨ k' = k := by
  rw [activeSetInsert_keys]
  by_cases hany : m.any (fun p => decide (p.1 = k)) = true
  · rw [if_pos hany]
    constructor
    · exact Or.inl
    · rintro (h | rfl)
      · exact h
      · obtain ⟨p, hp, hpk⟩ := List.any_eq_true.mp hany
        exact List.mem_map.mpr ⟨p, hp, by simpa using hpk⟩
  · rw [if_neg hany]
    simp

theorem activeFold_values (version : String) :
    ∀ (pods : List podInfo) (active : List (String × Bool)),
    (∀ kv ∈ active, kv.2 = true) →
    ∀ kv ∈ activeFold version pods active, kv.2 = true := by
  intro pods
  induction pods with
  | nil => intro active h; exact h
  | cons pod rest ih =>
    intro active h
    exact ih _ (activeSetInsert_values active _ h)

theorem activeFold_keys_nodup (version : String) :
    ∀ (pods : List podInfo) (active : List (String × Bool)),
    ((active.map Prod.fst).Nodup) →
    ((activeFold version pods active).map Prod.fst).Nodup := by
  intro pods
  induction pods with
  | nil => intro active h; exact h
  | cons pod rest ih =>
    intro active h
    exact ih _ (activeSetInsert_keys_nodup active _ h)

theorem activeFold_keys_mem (version : String) :
    ∀ (pods : List podInfo) (active : List (String × Bool)) (k : String),
    k ∈ (activeFold version pods active).map Prod.fst ↔
      k ∈ active.map Prod.fst ∨
        ∃ pod ∈ pods, k = podFirewallChainName pod.nspace pod.name version := by
  intro pods
  induction pods with
  | nil =>
    intro active k
    simp [activeFold]
  | cons pod rest ih =>
    intro active k
    show k ∈ (activeFold version rest
      (activeSetInsert active (podFirewallChainName pod.nspace pod.name version))).map
        Prod.fst ↔ _
    rw [ih, activeSetInsert_keys_mem]
    constructor
    · rintro ((h | h) | h)
      · exact Or.inl h
      · exact Or.inr ⟨pod, List.mem_cons_self _ _, h⟩
      · obtain ⟨p, hp, hk⟩ := h
        exact Or.inr ⟨p, List.mem_cons_of_mem _ hp, hk⟩
    · rintro (h | h)
      · exact Or.inl (Or.inl h)
      · obtain ⟨p, hp, hk⟩ := h
        rcases List.mem_cons.mp hp with rfl | hp'
        · exact Or.inl (Or.inr hk)
        · exact Or.inr ⟨p, hp', hk⟩

/-- The synchronizer is the pod loop run over the resolved local pods (the
error branch of getLocalPods is dead: the resolver always returns nil). -/
theorem syncPodFirewallChains_eq (npc : NetworkPolicyController)
    (pols : List networkPolicyInfo) (version : String) (s : IPT) :
    syncPodFirewallChains npc pols version s =
      syncLoop pols version
        ((getLocalPods npc npc.nodeIP).1.map (fun p => p.2)) s [] := rfl

/-! Lemmas about the local pod resolver. -/

theorem string_length_zero {s : String} (h : s.length = 0) : s = "" := by
  cases s with
  | mk data =>
    cases data with
    | nil => rfl
    | cons c cs => simp [String.length] at h

theorem mapSet_mem (m : List (String × podInfo)) (k : String) (v : podInfo)
    (k' : String) :
    (∃ pi, (k', pi) ∈ mapSet m k v) ↔ (∃ pi, (k', pi) ∈ m) ∨ k' = k := by
  unfold mapSet
  by_cases hany : m.any (fun p => decide (p.1 = k)) = true
  · rw [if_pos hany]
    constructor
    · rintro ⟨pi, hmem⟩
      obtain ⟨p, hp, heq⟩ := List.mem_map.mp hmem
      by_cases h1 : p.1 = k
      · rw [if_pos h1] at heq
        exact Or.inr (congrArg Prod.fst heq).symm
      · rw [if_neg h1] at heq
        exact Or.inl ⟨pi, heq ▸ hp⟩
    · rintro (⟨pi, hm⟩ | rfl)
      · by_cases h1 : k' = k
        · obtain ⟨p, hp, hpk⟩ := List.any_eq_true.mp hany
          refine ⟨v, List.mem_map.mpr ⟨p, hp, ?_⟩⟩
          rw [if_pos (by simpa using hpk)]
          rw [h1]
        · exact ⟨pi, List.mem_map.mpr ⟨(k', pi), hm, by rw [if_neg (by simpa using h1)]⟩⟩
      · obtain ⟨p, hp, hpk⟩ := List.any_eq_true.mp hany
        exact ⟨v, List.mem_map.mpr ⟨p, hp, by rw [if_pos (by simpa using hpk)]⟩⟩
  · rw [if_neg hany]
    constructor
    · rintro ⟨pi, hmem⟩
      rcases List.mem_append.mp hmem with h1 | h1
      · exact Or.inl ⟨pi, h1⟩
      · exact Or.inr (congrArg Prod.fst (List.mem_singleton.mp h1))
    · rintro (⟨pi, hm⟩ | rfl)
      · exact ⟨pi, List.mem_append_left _ hm⟩
      · exact ⟨v, List.mem_append_right _ (List.mem_singleton_self _)⟩

theorem getLocalPodsFold_mem (nodeIP : String) :
    ∀ (cache : List Pod) (acc : List (String × podInfo)) (ip : String),
    (∃ pi, (ip, pi) ∈ cache.foldl (getLocalPodsStep nodeIP) acc) ↔
      ((∃ pi, (ip, pi) ∈ acc) ∨
        ∃ pod ∈ cache, pod.statusPodIP = ip ∧ pod.statusHostIP = nodeIP ∧
          pod.statusPodIP ≠ "") := by
  intro cache
  induction cache with
  | nil => intro acc ip; simp
  | cons pod rest ih =>
    intro acc ip
    show (∃ pi, (ip, pi) ∈ rest.foldl (getLocalPodsStep nodeIP)
      (getLocalPodsStep nodeIP acc pod)) ↔ _
    rw [ih]
    unfold getLocalPodsStep
    by_cases h1 : pod.statusHostIP ≠ nodeIP
    · rw [if_pos h1]
      constructor
      · rintro (h | h)
        · exact Or.inl h
        · obtain ⟨p, hp, hfacts⟩ := h
          exact Or.inr ⟨p, List.mem_cons_of_mem _ hp, hfacts⟩
      · rintro (h | ⟨p, hp, hfacts⟩)
        · exact Or.inl h
        · rcases List.mem_cons.mp hp with rfl | hp'
          · exact absurd hfacts.2.1 h1
          · exact Or.inr ⟨p, hp', hfacts⟩
    · rw [if_neg h1]
      push_neg at h1
      by_cases h2 : pod.statusPodIP.length = 0 ∨ pod.statusPodIP = ""
      · rw [if_pos h2]
        have hempty : pod.statusPodIP = "" := by
          rcases h2 with h2 | h2
          · exact string_length_zero h2
          · exact h2
        constructor
        · rintro (h | h)
          · exact Or.inl h
          · obtain ⟨p, hp, hfacts⟩ := h
            exact Or.inr ⟨p, List.mem_cons_of_mem _ hp, hfacts⟩
        · rintro (h | ⟨p, hp, hfacts⟩)
          · exact Or.inl h
          · rcases List.mem_cons.mp hp with rfl | hp'
            · exact absurd hempty hfacts.2.2
            · exact Or.inr ⟨p, hp', hfacts⟩
      · rw [if_neg h2]
        push_neg at h2
        rw [mapSet_mem]
        constructor
        · rintro ((h | h) | h)
          · exact Or.inl h
          · exact Or.inr ⟨pod, List.mem_cons_self _ _, h.symm ▸ ⟨rfl, h1, h2.2⟩⟩
          · obtain ⟨p, hp, hfacts⟩ := h
            exact Or.inr ⟨p, List.mem_cons_of_mem _ hp, hfacts⟩
        · rintro (h | ⟨p, hp, hfacts⟩)
          · exact Or.inl (Or.inl h)
          · rcases List.mem_cons.mp hp with rfl | hp'
            · exact Or.inl (Or.inr hfacts.1.symm)
            · exact Or.inr ⟨p, hp', hfacts⟩

theorem getLocalPodsFold_no_qual (nodeIP : String) :
    ∀ (cache : List Pod) (acc : List (String × podInfo)),
    (∀ pod ∈ cache, pod.statusHostIP ≠ nodeIP ∨ pod.statusPodIP = "") →
    cache.foldl (getLocalPodsStep nodeIP) acc = acc := by
  intro cache
  induction cache with
  | nil => intro acc _; rfl
  | cons pod rest ih =>
    intro acc h
    show rest.foldl (getLocalPodsStep nodeIP) (getLocalPodsStep nodeIP acc pod) = acc
    have hstep : getLocalPodsStep nodeIP acc pod = acc := by
      unfold getLocalPodsStep
      rcases h pod (List.mem_cons_self _ _) with h1 | h1
      · rw [if_pos h1]
      · by_cases h2 : pod.statusHostIP ≠ nodeIP
        · rw [if_pos h2]
        · rw [if_neg h2, if_pos (Or.inr h1)]
    rw [hstep]
    exact ih acc (fun p hp => h p (List.mem_cons_of_mem _ hp))

/-- C5: for every pod-cache contents and node address, getLocalPods returns
a mapping that contains a pod address if and only if some cached pod has
that assigned address, is hosted on the given node, and the address is
non-empty; it never returns a non-nil error, and when no pod qualifies the
mapping is empty. -/
theorem getLocalPods_spec (npc : NetworkPolicyController) (nodeIP : String) :
    (getLocalPods npc nodeIP).2 = none ∧
    (∀ ip, (∃ pi, (ip, pi) ∈ (getLocalPods npc nodeIP).1) ↔
      ∃ pod ∈ npc.podLister,
        pod.statusPodIP = ip ∧ pod.statusHostIP = nodeIP ∧ pod.statusPodIP ≠ "") ∧
    ((∀ pod ∈ npc.podLister, pod.statusHostIP ≠ nodeIP ∨ pod.statusPodIP = "") →
      (getLocalPods npc nodeIP).1 = []) := by
  refine ⟨rfl, ?_, ?_⟩
  · intro ip
    show (∃ pi, (ip, pi) ∈ npc.podLister.foldl (getLocalPodsStep nodeIP) []) ↔ _
    rw [getLocalPodsFold_mem]
    simp
  · intro h
    exact getLocalPodsFold_no_qual nodeIP npc.podLister [] h

/-- C5 witness: a two-pod cache in which only one pod qualifies. -/
theorem getLocalPods_spec_witness :
    (∃ pi, ("10.1.1.2", pi) ∈
      (getLocalPods ⟨"192.168.0.1",
        [⟨"podA", "nsA", [], "Running", "192.168.0.1", "10.1.1.2"⟩,
         ⟨"podB", "nsB", [], "Pending", "192.168.0.9", "10.1.1.3"⟩]⟩
        "192.168.0.1").1) ∧
    ¬(∃ pi, ("10.1.1.3", pi) ∈
      (getLocalPods ⟨"192.168.0.1",
        [⟨"podA", "nsA", [], "Running", "192.168.0.1", "10.1.1.2"⟩,
         ⟨"podB", "nsB", [], "Pending", "192.168.0.9", "10.1.1.3"⟩]⟩
        "192.168.0.1").1) := by
  constructor
  · exact ((getLocalPods_spec ⟨"192.168.0.1",
      [⟨"podA", "nsA", [], "Running", "192.168.0.1", "10.1.1.2"⟩,
       ⟨"podB", "nsB", [], "Pending", "192.168.0.9", "10.1.1.3"⟩]⟩
      "192.168.0.1").2.1 "10.1.1.2").mpr
      ⟨⟨"podA", "nsA", [], "Running", "192.168.0.1", "10.1.1.2"⟩, by
        simp, rfl, rfl, by decide⟩
  · intro hmem
    have := ((getLocalPods_spec ⟨"192.168.0.1",
      [⟨"podA", "nsA", [], "Running", "192.168.0.1", "10.1.1.2"⟩,
       ⟨"podB", "nsB", [], "Pending", "192.168.0.9", "10.1.1.3"⟩]⟩
      "192.168.0.1").2.1 "10.1.1.3").mp hmem
    revert this
    decide

/-! Concrete fixtures: a one-pod node targeted by one policy, with the
pre-provisioned global chains present. -/

/-- Fixture controller: one running local pod. -/
def exNpc : NetworkPolicyController :=
  ⟨"192.168.0.1", [⟨"podA", "nsA", [], "Running", "192.168.0.1", "10.1.1.2"⟩]⟩

/-- Fixture policies: one policy targeting the fixture pod. -/
def exPols : List networkPolicyInfo := [⟨"polA", "nsA", ["10.1.1.2"]⟩]

/-- Fixture initial state: the global chains exist and are empty. -/
def exS0 : IPT :=
  ⟨[(("filter", kubeForwardChainName), []),
    (("filter", kubeOutputChainName), []),
    (("filter", kubeInputChainName), [])]⟩

/-- Fixture final state of one synchronizer run. -/
def exS1 : IPT := (syncPodFirewallChains exNpc exPols "v1" exS0).1

/-- Fixture active chain set of one synchronizer run. -/
def exA : List (String × Bool) := [("KUBE-POD-FW-WHN65CMFHIJA3WHV", true)]

/-! The claims about the synchronizer. -/

/-- C1: for every policy list, version string and pod cache, when a run of
syncPodFirewallChains succeeds, a second run from the resulting state
returns the same state (so the second run adds no rule and duplicates
nothing: every rule count is unchanged) and the same active chain set. -/
theorem syncPodFirewallChains_idempotent
    (npc : NetworkPolicyController) (pols : List networkPolicyInfo)
    (version : String) (s0 s1 : IPT) (A : List (String × Bool))
    (h : syncPodFirewallChains npc pols version s0 = (s1, some A, none)) :
    syncPodFirewallChains npc pols version s1 = (s1, some A, none) ∧
    (∀ t c r, (rulesOf (syncPodFirewallChains npc pols version s1).1 t c).count r =
      (rulesOf s1 t c).count r) := by
  rw [syncPodFirewallChains_eq] at h
  obtain ⟨hm, hest, hA⟩ := syncLoop_ok pols version _ s0 [] s1 A h
  have hrun2 := syncLoop_of_established pols version
    ((getLocalPods npc npc.nodeIP).1.map (fun p => p.2)) s1 [] hest
  constructor
  · rw [syncPodFirewallChains_eq, hrun2, hA]
  · intro t c r
    rw [syncPodFirewallChains_eq, hrun2]

/-- C1 witness: the fixture run succeeds, and the second run is the
identity on its state and active set. -/
theorem syncPodFirewallChains_idempotent_witness :
    syncPodFirewallChains exNpc exPols "v1" exS1 = (exS1, some exA, none) :=
  (syncPodFirewallChains_idempotent exNpc exPols "v1" exS0 exS1 exA (by decide)).1

/-- C3: on every successful run the returned active chain set holds the
value true for every key, has no duplicate key, and its keys are exactly
the pod chain names (for the given version) of the entries of the resolved
local pod mapping. -/
theorem syncPodFirewallChains_active_set
    (npc : NetworkPolicyController) (pols : List networkPolicyInfo)
    (version : String) (s s' : IPT) (A : List (String × Bool))
    (h : syncPodFirewallChains npc pols version s = (s', some A, none)) :
    (∀ kv ∈ A, kv.2 = true) ∧ (A.map Prod.fst).Nodup ∧
    (∀ k, k ∈ A.map Prod.fst ↔
      ∃ e ∈ (getLocalPods npc npc.nodeIP).1,
        k = podFirewallChainName e.2.nspace e.2.name version) := by
  rw [syncPodFirewallChains_eq] at h
  obtain ⟨-, -, hA⟩ := syncLoop_ok pols version _ s [] s' A h
  subst hA
  refine ⟨activeFold_values version _ [] (by simp),
    activeFold_keys_nodup version _ [] (by simp), ?_⟩
  intro k
  rw [activeFold_keys_mem]
  simp only [List.map_nil, List.not_mem_nil, false_or]
  constructor
  · rintro ⟨pod, hp, hk⟩
    obtain ⟨e, he, rfl⟩ := List.mem_map.mp hp
    exact ⟨e, he, hk⟩
  · rintro ⟨e, he, hk⟩
    exact ⟨e.2, List.mem_map.mpr ⟨e, he, rfl⟩, hk⟩

/-- C3 witness: on the fixture run the single key is the pod chain of the
single local pod. -/
theorem syncPodFirewallChains_active_set_witness :
    "KUBE-POD-FW-WHN65CMFHIJA3WHV" ∈ exA.map Prod.fst ↔
      ∃ e ∈ (getLocalPods exNpc exNpc.nodeIP).1,
        "KUBE-POD-FW-WHN65CMFHIJA3WHV" =
          podFirewallChainName e.2.nspace e.2.name "v1" :=
  (syncPodFirewallChains_active_set exNpc exPols "v1" exS0 exS1 exA
    (by decide)).2.2 "KUBE-POD-FW-WHN65CMFHIJA3WHV"

/-- C6 (amended): dropUnmarkedTrafficRules installs its log and reject
rules through existence-checked appends (AppendUnique), so a second call on
the same chain succeeds and changes nothing. -/
theorem dropUnmarkedTrafficRules_idempotent
    (podName podNamespace f : String) (s s' : IPT)
    (h : dropUnmarkedTrafficRules podName podNamespace f s = .ok s') :
    dropUnmarkedTrafficRules podName podNamespace f s' = .ok s' := by
  obtain ⟨-, h1, h2⟩ := dropUnmarkedTrafficRules_ok h
  exact dropUnmarkedTrafficRules_of_established h1 h2

/-- C6 witness: a second call on a freshly populated chain is the
identity. -/
theorem dropUnmarkedTrafficRules_idempotent_witness :
    dropUnmarkedTrafficRules "podA" "nsA" "KUBE-POD-FW-TEST"
        ((dropUnmarkedTrafficRules "podA" "nsA" "KUBE-POD-FW-TEST"
          (⟨[(("filter", "KUBE-POD-FW-TEST"), [])]⟩ : IPT)).state) =
      .ok ((dropUnmarkedTrafficRules "podA" "nsA" "KUBE-POD-FW-TEST"
          (⟨[(("filter", "KUBE-POD-FW-TEST"), [])]⟩ : IPT)).state) :=
  dropUnmarkedTrafficRules_idempotent "podA" "nsA" "KUBE-POD-FW-TEST"
    ⟨[(("filter", "KUBE-POD-FW-TEST"), [])]⟩ _ (by decide)

/-- C6 counterexample: calling dropUnmarkedTrafficRules a second time on an
already populated chain adds no duplicate: the log and reject rules still
occur once each and the state is unchanged, contrary to the claim that a
second call duplicates them. -/
theorem dropUnmarkedTrafficRules_no_duplicate_counterexample :
    (rulesOf ((dropUnmarkedTrafficRules "podA" "nsA" "KUBE-POD-FW-TEST"
        ((dropUnmarkedTrafficRules "podA" "nsA" "KUBE-POD-FW-TEST"
          (⟨[(("filter", "KUBE-POD-FW-TEST"), [])]⟩ : IPT)).state)).state)
      "filter" "KUBE-POD-FW-TEST").count (logDropArgs "podA" "nsA") = 1 ∧
    (rulesOf ((dropUnmarkedTrafficRules "podA" "nsA" "KUBE-POD-FW-TEST"
        ((dropUnmarkedTrafficRules "podA" "nsA" "KUBE-POD-FW-TEST"
          (⟨[(("filter", "KUBE-POD-FW-TEST"), [])]⟩ : IPT)).state)).state)
      "filter" "KUBE-POD-FW-TEST").count (rejectArgs "podA" "nsA") = 1 ∧
    (dropUnmarkedTrafficRules "podA" "nsA" "KUBE-POD-FW-TEST"
        ((dropUnmarkedTrafficRules "podA" "nsA" "KUBE-POD-FW-TEST"
          (⟨[(("filter", "KUBE-POD-FW-TEST"), [])]⟩ : IPT)).state)).state =
      ((dropUnmarkedTrafficRules "podA" "nsA" "KUBE-POD-FW-TEST"
        (⟨[(("filter", "KUBE-POD-FW-TEST"), [])]⟩ : IPT)).state) := by
  decide

/-- C7: a pod update notification triggers exactly one resync request if
and only if the status phase or the pod address changed; a labels-only
update triggers none, and an address change from empty to non-empty
triggers exactly one. -/
theorem newPodEventHandler_update_filtering :
    (∀ oldPoObj newPoObj : Pod,
      podUpdateResyncRequests oldPoObj newPoObj = 1 ↔
        (newPoObj.statusPhase ≠ oldPoObj.statusPhase ∨
          newPoObj.statusPodIP ≠ oldPoObj.statusPodIP)) ∧
    (∀ oldPoObj newPoObj : Pod,
      newPoObj.statusPhase = oldPoObj.statusPhase →
      newPoObj.statusPodIP = oldPoObj.statusPodIP →
      podUpdateResyncRequests oldPoObj newPoObj = 0) ∧
    (∀ oldPoObj newPoObj : Pod,
      oldPoObj.statusPodIP = "" → newPoObj.statusPodIP ≠ "" →
      podUpdateResyncRequests oldPoObj newPoObj = 1) := by
  refine ⟨?_, ?_, ?_⟩ <;> intro oldPo newPo
  · unfold podUpdateResyncRequests
    by_cases h : newPo.statusPhase ≠ oldPo.statusPhase ∨
        newPo.statusPodIP ≠ oldPo.statusPodIP
    · rw [if_pos h]
      simp [h]
    · rw [if_neg h]
      simp [h]
  · intro h1 h2
    unfold podUpdateResyncRequests
    rw [if_neg (by rintro (h | h); exacts [h h1, h h2])]
  · intro h1 h2
    unfold podUpdateResyncRequests
    rw [if_pos (Or.inr (by rw [h1]; exact h2))]

/-- C7 witness: a labels-only update triggers no resync; an address change
from empty to a real value triggers one. -/
theorem newPodEventHandler_update_filtering_witness :
    podUpdateResyncRequests ⟨"p", "n", [], "Running", "h", ""⟩
        ⟨"p", "n", [("app", "web")], "Running", "h", ""⟩ = 0 ∧
    podUpdateResyncRequests ⟨"p", "n", [], "Running", "h", ""⟩
        ⟨"p", "n", [], "Running", "h", "10.0.0.7"⟩ = 1 :=
  ⟨newPodEventHandler_update_filtering.2.1 _ _ rfl rfl,
   newPodEventHandler_update_filtering.2.2 _ _ rfl (by decide)⟩

/-- C8: whenever syncPodFirewallChains returns a non-nil error it returns a
nil active chain set, and whenever it returns a nil error it returns some
active chain set: no partially built set ever accompanies an error. -/
theorem syncPodFirewallChains_error_returns_nil_set
    (npc : NetworkPolicyController) (pols : List networkPolicyInfo)
    (version : String) (s : IPT) :
    ((syncPodFirewallChains npc pols version s).2.2 ≠ none →
      (syncPodFirewallChains npc pols version s).2.1 = none) ∧
    ((syncPodFirewallChains npc pols version s).2.2 = none →
      ∃ A, (syncPodFirewallChains npc pols version s).2.1 = some A) := by
  rw [syncPodFirewallChains_eq]
  rcases syncLoop_shape pols version
      ((getLocalPods npc npc.nodeIP).1.map (fun p => p.2)) s [] with
    ⟨h1, A, h2⟩ | ⟨h1, e, h2⟩
  · exact ⟨fun hne => absurd h1 hne, fun _ => ⟨A, h2⟩⟩
  · refine ⟨fun _ => h1, fun hnone => ?_⟩
    rw [hnone] at h2
    cases h2

/-- C8 witness: in an initial state lacking the global chains, the fixture
run fails (the interception insert errors) and the returned set is nil. -/
theorem syncPodFirewallChains_error_returns_nil_set_witness :
    (syncPodFirewallChains exNpc exPols "v1" (⟨[]⟩ : IPT)).2.1 = none :=
  (syncPodFirewallChains_error_returns_nil_set exNpc exPols "v1" ⟨[]⟩).1 (by decide)

/-- C9 (amended): every rule a synchronizer run adds to any chain carries a
comment annotation, with the single exception of the mark-reset rule. -/
theorem syncPodFirewallChains_rules_commented
    (npc : NetworkPolicyController) (pols : List networkPolicyInfo)
    (version : String) (s : IPT) :
    ∀ t c r, r ∈ rulesOf (syncPodFirewallChains npc pols version s).1 t c →
      r ∈ rulesOf s t c ∨ hasCommentClause r ∨ r = markResetArgs := by
  rw [syncPodFirewallChains_eq]
  exact addsOnly_syncLoop pols version _ s []

/-- C9 witness: the mark-accept rule of the fixture run is covered by the
comment disjunct. -/
theorem syncPodFirewallChains_rules_commented_witness :
    markAcceptArgs ∈ rulesOf exS0 "filter" "KUBE-POD-FW-WHN65CMFHIJA3WHV" ∨
      hasCommentClause markAcceptArgs ∨ markAcceptArgs = markResetArgs :=
  syncPodFirewallChains_rules_commented exNpc exPols "v1" exS0 "filter"
    "KUBE-POD-FW-WHN65CMFHIJA3WHV" markAcceptArgs (by decide)

/-- C9 counterexample: the mark-reset rule is installed into the pod chain
by a successful run (it was absent from the initial state) and carries no
comment annotation, so not every installed rule is commented. -/
theorem syncPodFirewallChains_uncommented_rule_counterexample :
    markResetArgs ∈ rulesOf (syncPodFirewallChains exNpc exPols "v1" exS0).1
        "filter" "KUBE-POD-FW-WHN65CMFHIJA3WHV" ∧
    markResetArgs ∉ rulesOf exS0 "filter" "KUBE-POD-FW-WHN65CMFHIJA3WHV" ∧
    ¬ hasCommentClause markResetArgs := by
  refine ⟨by decide, by decide, ?_⟩
  simp [hasCommentClause, markResetArgs]

/-! Exact chain contents of the ingress builder on a fresh chain, for the
completeness claims. -/

/-- The shape of a policy jump rule: a six-element specification headed by
the comment clause. -/
def isPolicyJumpRule (r : Rule) : Bool :=
  decide (r.length = 6) && decide (r.take 3 = ["-m", "comment", "--comment"])

theorem string_append_left_cancel {x a b : String} (h : x ++ a = x ++ b) : a = b := by
  have hd : x.data ++ a.data = x.data ++ b.data := by
    have h1 := congrArg String.data h
    simpa [String.data_append] using h1
  cases a with
  | mk da =>
    cases b with
    | mk db =>
      have : da = db := List.append_cancel_left hd
      rw [this]

theorem nodup_map_jumpArgs (version : String) :
    ∀ (l : List networkPolicyInfo),
    (l.map (fun p => p.name)).Nodup →
    (l.map (fun p => ingressPolicyJumpArgs p version)).Nodup := by
  intro l
  induction l with
  | nil => intro _; simp
  | cons p rest ih =>
    intro h
    rw [List.map_cons, List.nodup_cons] at h ⊢
    obtain ⟨hnm, hrest⟩ := h
    refine ⟨?_, ih hrest⟩
    intro hmem
    obtain ⟨q, hq, heq⟩ := List.mem_map.mp hmem
    have h3 : "run through nw policy " ++ q.name = "run through nw policy " ++ p.name := by
      have h4 := congrArg (fun r : Rule => r.getD 3 "") heq
      simpa [ingressPolicyJumpArgs] using h4
    exact hnm (List.mem_map.mpr ⟨q, hq, string_append_left_cancel h3⟩)

theorem getChain_setChain_self {s : IPT} {t c : String} {rs : List Rule}
    (rs' : List Rule) (h : getChain s t c = some rs) :
    getChain (setChain s t c rs') t c = some rs' := by
  rw [getChain_setChain, if_pos rfl, h]
  rfl

theorem checkInsert_not_mem {s : IPT} {c : String} {args : Rule} {rs : List Rule}
    (hg : getChain s "filter" c = some rs) (hnm : args ∉ rs) :
    checkInsert s c args = .ok (setChain s "filter" c (args :: rs)) := by
  have hex : iptExists s "filter" c args = false := by
    unfold iptExists
    rw [hg]
    simpa using hnm
  unfold checkInsert
  rw [if_neg (by rw [hex]; exact Bool.false_ne_true), iptInsert_one_some s _ _ _ rs hg]

theorem checkInsertTol_not_mem {s : IPT} {c : String} {args : Rule} {rs : List Rule}
    (hg : getChain s "filter" c = some rs) (hnm : args ∉ rs) :
    checkInsertTol s c args = .ok (setChain s "filter" c (args :: rs)) := by
  have hex : iptExists s "filter" c args = false := by
    unfold iptExists
    rw [hg]
    simpa using hnm
  unfold checkInsertTol
  rw [if_neg (by rw [hex]; exact Bool.false_ne_true), iptInsert_one_some s _ _ _ rs hg]

theorem ingressPolicyLoop_cons_insert {pod : podInfo} {f version : String}
    {policy : networkPolicyInfo} {rest : List networkPolicyInfo}
    {s : IPT} {b : Bool} {rs0 : List Rule}
    (ht : pod.ip ∈ policy.targetPods)
    (hg : getChain s "filter" f = some rs0)
    (hnm : ingressPolicyJumpArgs policy version ∉ rs0) :
    ingressPolicyLoop pod f version (policy :: rest) s b =
      ingressPolicyLoop pod f version rest
        (setChain s "filter" f (ingressPolicyJumpArgs policy version :: rs0)) true := by
  have hex : iptExists s "filter" f (ingressPolicyJumpArgs policy version) = false := by
    unfold iptExists
    rw [hg]
    simpa using hnm
  simp only [ingressPolicyLoop, if_pos ht]
  rw [if_neg (by rw [hex]; exact Bool.false_ne_true), iptInsert_one_some s _ _ _ rs0 hg]

theorem ingressPolicyLoop_cons_skip {pod : podInfo} {f version : String}
    {policy : networkPolicyInfo} {rest : List networkPolicyInfo}
    {s : IPT} {b : Bool}
    (ht : pod.ip ∉ policy.targetPods) :
    ingressPolicyLoop pod f version (policy :: rest) s b =
      ingressPolicyLoop pod f version rest s b := by
  simp only [ingressPolicyLoop, if_neg ht]

theorem ingressPolicyLoop_exact {pod : podInfo} {f version : String} :
    ∀ (pols : List networkPolicyInfo) (s : IPT) (b : Bool) (rs0 : List Rule),
    getChain s "filter" f = some rs0 →
    (∀ policy ∈ pols, pod.ip ∈ policy.targetPods →
      ingressPolicyJumpArgs policy version ∉ rs0) →
    ((pols.filter (fun p => decide (pod.ip ∈ p.targetPods))).map
      (fun p => ingressPolicyJumpArgs p version)).Nodup →
    ∃ s', ingressPolicyLoop pod f version pols s b = .ok s' (b || anyTarget pod pols) ∧
      getChain s' "filter" f = some
        (((pols.filter (fun p => decide (pod.ip ∈ p.targetPods))).map
          (fun p => ingressPolicyJumpArgs p version)).reverse ++ rs0) ∧
      (∀ t c, (t, c) ≠ ("filter", f) → getChain s' t c = getChain s t c) := by
  intro pols
  induction pols with
  | nil =>
    intro s b rs0 hg _ _
    exact ⟨s, by simp [ingressPolicyLoop, anyTarget], by simpa using hg,
      fun _ _ _ => rfl⟩
  | cons policy rest ih =>
    intro s b rs0 hg hnm hnd
    by_cases ht : pod.ip ∈ policy.targetPods
    · have hfilter : (policy :: rest).filter (fun p => decide (pod.ip ∈ p.targetPods)) =
          policy :: rest.filter (fun p => decide (pod.ip ∈ p.targetPods)) := by
        simp [List.filter_cons, ht]
      have hnotmem : ingressPolicyJumpArgs policy version ∉ rs0 :=
        hnm policy (List.mem_cons_self _ _) ht
      have hg2 : getChain (setChain s "filter" f
          (ingressPolicyJumpArgs policy version :: rs0)) "filter" f =
          some (ingressPolicyJumpArgs policy version :: rs0) :=
        getChain_setChain_self _ hg
      rw [hfilter, List.map_cons, List.nodup_cons] at hnd
      obtain ⟨hjn, hnd'⟩ := hnd
      have hnm2 : ∀ q ∈ rest, pod.ip ∈ q.targetPods →
          ingressPolicyJumpArgs q version ∉
            ingressPolicyJumpArgs policy version :: rs0 := by
        intro q hq htq hmem
        rcases List.mem_cons.mp hmem with heq | hmem'
        · exact hjn (heq ▸ List.mem_map.mpr
            ⟨q, List.mem_filter.mpr ⟨hq, by simpa using htq⟩, rfl⟩)
        · exact hnm q (List.mem_cons_of_mem _ hq) htq hmem'
      obtain ⟨s', hloop, hg', hother⟩ := ih
        (setChain s "filter" f (ingressPolicyJumpArgs policy version :: rs0)) true
        (ingressPolicyJumpArgs policy version :: rs0) hg2 hnm2 hnd'
      refine ⟨s', ?_, ?_, ?_⟩
      · rw [ingressPolicyLoop_cons_insert ht hg hnotmem, hloop]
        have hat : anyTarget pod (policy :: rest) = true := by
          simp [anyTarget, ht]
        rw [hat]
        simp
      · rw [hg', hfilter]
        simp
      · intro t c hne
        rw [hother t c hne, getChain_setChain, if_neg hne]
    · have hfilter : (policy :: rest).filter (fun p => decide (pod.ip ∈ p.targetPods)) =
          rest.filter (fun p => decide (pod.ip ∈ p.targetPods)) := by
        simp [List.filter_cons, ht]
      rw [hfilter] at hnd
      obtain ⟨s', hloop, hg', hother⟩ := ih s b rs0 hg
        (fun q hq htq => hnm q (List.mem_cons_of_mem _ hq) htq) hnd
      refine ⟨s', ?_, ?_, hother⟩
      · rw [ingressPolicyLoop_cons_skip ht, hloop]
        have hat : anyTarget pod (policy :: rest) = anyTarget pod rest := by
          simp [anyTarget, ht]
        rw [hat]
      · rw [hg', hfilter]

theorem ingressPolicyJumpArgs_length (p : networkPolicyInfo) (version : String) :
    (ingressPolicyJumpArgs p version).length = 6 := rfl

theorem localNodeAllowArgs_length (pod : podInfo) :
    (localNodeAllowArgs pod).length = 12 := rfl

theorem statefulFirewallArgs_length : statefulFirewallArgs.length = 10 := rfl

theorem defaultIngressJumpArgs_length (pod : podInfo) :
    (defaultIngressJumpArgs pod).length = 8 := rfl

theorem defaultEgressJumpArgs_length (pod : podInfo) :
    (defaultEgressJumpArgs pod).length = 8 := rfl

theorem notMem_jump_reverse {version : String} {r : Rule} (hr : r.length ≠ 6)
    (l : List networkPolicyInfo) :
    r ∉ (l.map (fun p => ingressPolicyJumpArgs p version)).reverse := by
  intro hmem
  rw [List.mem_reverse] at hmem
  obtain ⟨p, _, heq⟩ := List.mem_map.mp hmem
  exact hr (heq ▸ ingressPolicyJumpArgs_length p version)

theorem filter_nil_of_anyTarget_false {pod : podInfo} {pols : List networkPolicyInfo}
    (h : anyTarget pod pols = false) :
    pols.filter (fun p => decide (pod.ip ∈ p.targetPods)) = [] := by
  unfold anyTarget at h
  rw [List.any_eq_false] at h
  rw [List.filter_eq_nil_iff]
  intro p hp
  simpa using h p hp

theorem setupPodIngressRules_exact {pod : podInfo} {f : String}
    {pols : List networkPolicyInfo} {version : String} {s : IPT}
    (hg : getChain s "filter" f = some [])
    (hnames : (pols.map (fun p => p.name)).Nodup) :
    ∃ s', setupPodIngressRules pod f pols version s = .ok s' ∧
      getChain s' "filter" f = some
        (if anyTarget pod pols = true then
          statefulFirewallArgs :: localNodeAllowArgs pod ::
            ((pols.filter (fun p => decide (pod.ip ∈ p.targetPods))).map
              (fun p => ingressPolicyJumpArgs p version)).reverse
        else [statefulFirewallArgs, localNodeAllowArgs pod,
          defaultIngressJumpArgs pod]) ∧
      (∀ t c, (t, c) ≠ ("filter", f) → getChain s' t c = getChain s t c) := by
  have hndnames : ((pols.filter (fun p => decide (pod.ip ∈ p.targetPods))).map
      (fun p => p.name)).Nodup :=
    hnames.sublist ((List.filter_sublist pols).map _)
  have hnd := nodup_map_jumpArgs version _ hndnames
  obtain ⟨s2, hloop, hg2, hother2⟩ := ingressPolicyLoop_exact pols s false [] hg
    (fun p _ _ => List.not_mem_nil _) hnd
  unfold setupPodIngressRules
  rw [hloop]
  rw [List.append_nil] at hg2
  cases hat : anyTarget pod pols with
  | true =>
    have hna : localNodeAllowArgs pod ∉
        ((pols.filter (fun p => decide (pod.ip ∈ p.targetPods))).map
          (fun p => ingressPolicyJumpArgs p version)).reverse :=
      notMem_jump_reverse (by rw [localNodeAllowArgs_length]; decide) _
    have hg3 := getChain_setChain_self ( localNodeAllowArgs pod ::
      ((pols.filter (fun p => decide (pod.ip ∈ p.targetPods))).map
        (fun p => ingressPolicyJumpArgs p version)).reverse) hg2
    have hns : statefulFirewallArgs ∉ localNodeAllowArgs pod ::
        ((pols.filter (fun p => decide (pod.ip ∈ p.targetPods))).map
          (fun p => ingressPolicyJumpArgs p version)).reverse := by
      intro hmem
      rcases List.mem_cons.mp hmem with heq | hmem'
      · have := congrArg List.length heq
        rw [statefulFirewallArgs_length, localNodeAllowArgs_length] at this
        cases this
      · exact notMem_jump_reverse (by rw [statefulFirewallArgs_length]; decide) _ hmem'
    have hg4 := getChain_setChain_self ( statefulFirewallArgs ::
      localNodeAllowArgs pod ::
      ((pols.filter (fun p => decide (pod.ip ∈ p.targetPods))).map
        (fun p => ingressPolicyJumpArgs p version)).reverse) hg3
    refine ⟨setChain (setChain s2 "filter" f (localNodeAllowArgs pod ::
      ((pols.filter (fun p => decide (pod.ip ∈ p.targetPods))).map
        (fun p => ingressPolicyJumpArgs p version)).reverse)) "filter" f
      (statefulFirewallArgs :: localNodeAllowArgs pod ::
        ((pols.filter (fun p => decide (pod.ip ∈ p.targetPods))).map
          (fun p => ingressPolicyJumpArgs p version)).reverse), ?_, ?_, ?_⟩
    · show ((if (false || true : Bool) then StepRes.ok s2
          else checkInsertTol s2 f (defaultIngressJumpArgs pod)).andThen
            (fun s3 => (checkInsert s3 f (localNodeAllowArgs pod)).andThen
              (fun s4 => checkInsert s4 f statefulFirewallArgs))) = _
      rw [if_pos (by simp), StepRes.andThen_okArg, checkInsert_not_mem hg2 hna,
        StepRes.andThen_okArg, checkInsert_not_mem hg3 hns]
    · exact hg4
    · intro t c hne
      rw [getChain_setChain, if_neg hne, getChain_setChain, if_neg hne]
      exact hother2 t c hne
  | false =>
    rw [filter_nil_of_anyTarget_false hat] at hg2
    rw [List.map_nil, List.reverse_nil] at hg2
    have hg3 := getChain_setChain_self ( [defaultIngressJumpArgs pod]) hg2
    have hna : localNodeAllowArgs pod ∉ [defaultIngressJumpArgs pod] := by
      intro hmem
      have := congrArg List.length (List.mem_singleton.mp hmem)
      rw [localNodeAllowArgs_length, defaultIngressJumpArgs_length] at this
      cases this
    have hg4 := getChain_setChain_self ( [localNodeAllowArgs pod,
      defaultIngressJumpArgs pod]) hg3
    have hns : statefulFirewallArgs ∉ [localNodeAllowArgs pod,
        defaultIngressJumpArgs pod] := by
      intro hmem
      rcases List.mem_cons.mp hmem with heq | hmem'
      · have := congrArg List.length heq
        rw [statefulFirewallArgs_length, localNodeAllowArgs_length] at this
        cases this
      · have := congrArg List.length (List.mem_singleton.mp hmem')
        rw [statefulFirewallArgs_length, defaultIngressJumpArgs_length] at this
        cases this
    have hg5 := getChain_setChain_self ( [statefulFirewallArgs,
      localNodeAllowArgs pod, defaultIngressJumpArgs pod]) hg4
    refine ⟨setChain (setChain (setChain s2 "filter" f [defaultIngressJumpArgs pod])
      "filter" f [localNodeAllowArgs pod, defaultIngressJumpArgs pod]) "filter" f
      [statefulFirewallArgs, localNodeAllowArgs pod, defaultIngressJumpArgs pod],
      ?_, ?_, ?_⟩
    · show ((if (false || false : Bool) then StepRes.ok s2
          else checkInsertTol s2 f (defaultIngressJumpArgs pod)).andThen
            (fun s3 => (checkInsert s3 f (localNodeAllowArgs pod)).andThen
              (fun s4 => checkInsert s4 f statefulFirewallArgs))) = _
      rw [if_neg (by simp), checkInsertTol_not_mem hg2 (List.not_mem_nil _),
        StepRes.andThen_okArg, checkInsert_not_mem hg3 hna,
        StepRes.andThen_okArg, checkInsert_not_mem hg4 hns]
    · exact hg5
    · intro t c hne
      rw [getChain_setChain, if_neg hne, getChain_setChain, if_neg hne,
        getChain_setChain, if_neg hne]
      exact hother2 t c hne

theorem isPolicyJumpRule_jump (p : networkPolicyInfo) (version : String) :
    isPolicyJumpRule (ingressPolicyJumpArgs p version) = true := rfl

theorem isPolicyJumpRule_stateful : isPolicyJumpRule statefulFirewallArgs = false := rfl

theorem isPolicyJumpRule_localAllow (pod : podInfo) :
    isPolicyJumpRule (localNodeAllowArgs pod) = false := rfl

theorem isPolicyJumpRule_defaultIngress (pod : podInfo) :
    isPolicyJumpRule (defaultIngressJumpArgs pod) = false := rfl

theorem ne_of_length_ne {r r' : Rule} (h : r.length ≠ r'.length) : r ≠ r' :=
  fun he => h (he ▸ rfl)

theorem count_eq_one_of_mem_nodup {l : List Rule} {a : Rule}
    (hnd : l.Nodup) (h : a ∈ l) : l.count a = 1 := by
  induction l with
  | nil => cases h
  | cons b l ih =>
    rw [List.nodup_cons] at hnd
    rcases List.mem_cons.mp h with rfl | h'
    · rw [List.count_cons_self, List.count_eq_zero.mpr hnd.1]
    · have hne : a ≠ b := fun he => hnd.1 (he ▸ h')
      rw [List.count_cons_of_ne hne]
      exact ih hnd.2 h'

theorem anyTarget_true_filter_ne {pod : podInfo} {pols : List networkPolicyInfo}
    (h : anyTarget pod pols = true) :
    pols.filter (fun p => decide (pod.ip ∈ p.targetPods)) ≠ [] := by
  obtain ⟨p, hp, htp⟩ := List.any_eq_true.mp h
  intro hnil
  have hm : p ∈ pols.filter (fun p => decide (pod.ip ∈ p.targetPods)) :=
    List.mem_filter.mpr ⟨hp, htp⟩
  rw [hnil] at hm
  exact List.not_mem_nil _ hm

/-- C2 (amended): on a freshly created pod chain and with pairwise-distinct
policy names, setupPodIngressRules leaves the chain with exactly one
default-ingress jump and no policy-jump rule when no policy in the list
targets the pod address, and with exactly N policy-jump rules (one per
targeting policy) and no default-ingress jump when N targeting policies are
in the list. -/
theorem setupPodIngressRules_completeness
    (pod : podInfo) (f : String) (pols : List networkPolicyInfo) (version : String)
    (s s' : IPT)
    (hfresh : getChain s "filter" f = some [])
    (hnames : (pols.map (fun p => p.name)).Nodup)
    (hok : setupPodIngressRules pod f pols version s = .ok s') :
    ((pols.filter (fun p => decide (pod.ip ∈ p.targetPods))).length = 0 →
      (rulesOf s' "filter" f).count (defaultIngressJumpArgs pod) = 1 ∧
      (rulesOf s' "filter" f).countP isPolicyJumpRule = 0) ∧
    ((pols.filter (fun p => decide (pod.ip ∈ p.targetPods))).length ≠ 0 →
      (rulesOf s' "filter" f).countP isPolicyJumpRule =
        (pols.filter (fun p => decide (pod.ip ∈ p.targetPods))).length ∧
      (∀ p ∈ pols.filter (fun p => decide (pod.ip ∈ p.targetPods)),
        (rulesOf s' "filter" f).count (ingressPolicyJumpArgs p version) = 1) ∧
      (rulesOf s' "filter" f).count (defaultIngressJumpArgs pod) = 0) := by
  obtain ⟨s'', hrun, hget, -⟩ := setupPodIngressRules_exact hfresh hnames
  rw [hok] at hrun
  injection hrun with hrun
  subst hrun
  constructor
  · intro hlen
    have hat : anyTarget pod pols = false := by
      cases hat : anyTarget pod pols with
      | false => rfl
      | true =>
        exact absurd (List.length_eq_zero.mp hlen) (anyTarget_true_filter_ne hat)
    rw [rulesOf_of_getChain_some hget,
      if_neg (by rw [hat]; exact Bool.false_ne_true)]
    constructor
    · have h1 : defaultIngressJumpArgs pod ≠ statefulFirewallArgs :=
        ne_of_length_ne (by
          rw [defaultIngressJumpArgs_length, statefulFirewallArgs_length]; decide)
      have h2 : defaultIngressJumpArgs pod ≠ localNodeAllowArgs pod :=
        ne_of_length_ne (by
          rw [defaultIngressJumpArgs_length, localNodeAllowArgs_length]; decide)
      rw [List.count_cons_of_ne h1, List.count_cons_of_ne h2]
      simp
    · simp [List.countP_cons, isPolicyJumpRule_stateful, isPolicyJumpRule_localAllow,
        isPolicyJumpRule_defaultIngress]
  · intro hlen
    have hat : anyTarget pod pols = true := by
      cases hat : anyTarget pod pols with
      | true => rfl
      | false =>
        rw [filter_nil_of_anyTarget_false hat] at hlen
        exact absurd rfl hlen
    rw [rulesOf_of_getChain_some hget, if_pos hat]
    refine ⟨?_, ?_, ?_⟩
    · rw [List.countP_cons, List.countP_cons, isPolicyJumpRule_stateful,
        isPolicyJumpRule_localAllow]
      rw [List.countP_eq_length.mpr ?_]
      · simp
      · intro r hr
        rw [List.mem_reverse] at hr
        obtain ⟨p, -, rfl⟩ := List.mem_map.mp hr
        exact isPolicyJumpRule_jump p version
    · intro p hp
      have h1 : ingressPolicyJumpArgs p version ≠ statefulFirewallArgs :=
        ne_of_length_ne (by
          rw [ingressPolicyJumpArgs_length, statefulFirewallArgs_length]; decide)
      have h2 : ingressPolicyJumpArgs p version ≠ localNodeAllowArgs pod :=
        ne_of_length_ne (by
          rw [ingressPolicyJumpArgs_length, localNodeAllowArgs_length]; decide)
      rw [List.count_cons_of_ne h1, List.count_cons_of_ne h2]
      have hnd := nodup_map_jumpArgs version
        (pols.filter (fun p => decide (pod.ip ∈ p.targetPods)))
        (hnames.sublist ((List.filter_sublist pols).map _))
      exact count_eq_one_of_mem_nodup (List.nodup_reverse.mpr hnd)
        (List.mem_reverse.mpr (List.mem_map.mpr ⟨p, hp, rfl⟩))
    · rw [List.count_eq_zero]
      intro hmem
      rcases List.mem_cons.mp hmem with heq | hmem'
      · exact ne_of_length_ne (by
          rw [defaultIngressJumpArgs_length, statefulFirewallArgs_length]; decide) heq
      rcases List.mem_cons.mp hmem' with heq | hmem''
      · exact ne_of_length_ne (by
          rw [defaultIngressJumpArgs_length, localNodeAllowArgs_length]; decide) heq
      · exact notMem_jump_reverse (by
          rw [defaultIngressJumpArgs_length]; decide) _ hmem''

/-- C2 witness: a fresh chain, one policy with a distinct name targeting
the pod: exactly one policy-jump rule and no default-ingress jump. -/
theorem setupPodIngressRules_completeness_witness :
    (rulesOf ((setupPodIngressRules ⟨"10.1.1.2", "podA", "nsA", []⟩
        "KUBE-POD-FW-TEST" [⟨"polA", "nsA", ["10.1.1.2"]⟩] "v1"
        (⟨[(("filter", "KUBE-POD-FW-TEST"), [])]⟩ : IPT)).state) "filter"
      "KUBE-POD-FW-TEST").countP isPolicyJumpRule = 1 ∧
    (rulesOf ((setupPodIngressRules ⟨"10.1.1.2", "podA", "nsA", []⟩
        "KUBE-POD-FW-TEST" [⟨"polA", "nsA", ["10.1.1.2"]⟩] "v1"
        (⟨[(("filter", "KUBE-POD-FW-TEST"), [])]⟩ : IPT)).state) "filter"
      "KUBE-POD-FW-TEST").count
      (defaultIngressJumpArgs ⟨"10.1.1.2", "podA", "nsA", []⟩) = 0 := by
  have h := (setupPodIngressRules_completeness ⟨"10.1.1.2", "podA", "nsA", []⟩
    "KUBE-POD-FW-TEST" [⟨"polA", "nsA", ["10.1.1.2"]⟩] "v1"
    ⟨[(("filter", "KUBE-POD-FW-TEST"), [])]⟩
    ((setupPodIngressRules ⟨"10.1.1.2", "podA", "nsA", []⟩
      "KUBE-POD-FW-TEST" [⟨"polA", "nsA", ["10.1.1.2"]⟩] "v1"
      (⟨[(("filter", "KUBE-POD-FW-TEST"), [])]⟩ : IPT)).state)
    (by decide) (by decide) (by decide)).2 (by decide)
  exact ⟨h.1.trans (by decide), h.2.2⟩

/-- C2 counterexample: with the same targeting policy listed twice, the
claim asks for exactly two policy-jump rules, but the identical second jump
specification is found existing and skipped, so the fresh chain ends up
with one policy-jump rule. -/
theorem setupPodIngressRules_duplicate_policy_counterexample :
    (rulesOf ((setupPodIngressRules ⟨"10.1.1.2", "podA", "nsA", []⟩
        "KUBE-POD-FW-TEST"
        [⟨"polA", "nsA", ["10.1.1.2"]⟩, ⟨"polA", "nsA", ["10.1.1.2"]⟩] "v1"
        (⟨[(("filter", "KUBE-POD-FW-TEST"), [])]⟩ : IPT)).state) "filter"
      "KUBE-POD-FW-TEST").countP isPolicyJumpRule = 1 ∧
    (([⟨"polA", "nsA", ["10.1.1.2"]⟩, ⟨"polA", "nsA", ["10.1.1.2"]⟩] :
        List networkPolicyInfo).filter
      (fun p => decide ("10.1.1.2" ∈ p.targetPods))).length = 2 := by
  decide

/-- C10 (amended): the egress builder uses the identical membership test and
generates byte-identical jump specifications to the ingress builder; on a
fresh chain with pairwise-distinct policy names and at least one targeting
policy, running ingress then egress leaves the state of the ingress pass
unchanged (the egress pass finds every jump present), the chain holds
exactly one jump rule per targeting policy, and neither direction installs
its default-chain jump. -/
theorem setupPodEgressRules_shared_jumps
    (pod : podInfo) (f : String) (pols : List networkPolicyInfo) (version : String)
    (s s1 : IPT)
    (hfresh : getChain s "filter" f = some [])
    (hnames : (pols.map (fun p => p.name)).Nodup)
    (htarget : anyTarget pod pols = true)
    (hok : setupPodIngressRules pod f pols version s = .ok s1) :
    (∀ (policy : networkPolicyInfo) (v : String),
      egressPolicyJumpArgs policy v = ingressPolicyJumpArgs policy v) ∧
    setupPodEgressRules pod f pols version s1 = .ok s1 ∧
    (rulesOf s1 "filter" f).countP isPolicyJumpRule =
      (pols.filter (fun p => decide (pod.ip ∈ p.targetPods))).length ∧
    (∀ p ∈ pols.filter (fun p => decide (pod.ip ∈ p.targetPods)),
      (rulesOf s1 "filter" f).count (ingressPolicyJumpArgs p version) = 1) ∧
    (rulesOf s1 "filter" f).count (defaultIngressJumpArgs pod) = 0 ∧
    (rulesOf s1 "filter" f).count (defaultEgressJumpArgs pod) = 0 := by
  obtain ⟨s'', hrun, hget, -⟩ := setupPodIngressRules_exact hfresh hnames
  rw [hok] at hrun
  injection hrun with hrun
  subst hrun
  rw [if_pos htarget] at hget
  have hrules := rulesOf_of_getChain_some hget
  have hjumps : ∀ policy ∈ pols, pod.ip ∈ policy.targetPods →
      egressPolicyJumpArgs policy version ∈ rulesOf s1 "filter" f := by
    intro p hp htp
    rw [hrules]
    exact List.mem_cons_of_mem _ (List.mem_cons_of_mem _
      (List.mem_reverse.mpr (List.mem_map.mpr
        ⟨p, List.mem_filter.mpr ⟨hp, by simpa using htp⟩, rfl⟩)))
  have hegress : setupPodEgressRules pod f pols version s1 = .ok s1 :=
    setupPodEgressRules_of_established hjumps
      (fun hat => by rw [hat] at htarget; cases htarget)
      (by rw [hrules]; exact List.mem_cons_self _ _)
  refine ⟨fun _ _ => rfl, hegress, ?_, ?_, ?_, ?_⟩
  · rw [hrules, List.countP_cons, List.countP_cons, isPolicyJumpRule_stateful,
      isPolicyJumpRule_localAllow]
    rw [List.countP_eq_length.mpr ?_]
    · simp
    · intro r hr
      rw [List.mem_reverse] at hr
      obtain ⟨p, -, rfl⟩ := List.mem_map.mp hr
      exact isPolicyJumpRule_jump p version
  · intro p hp
    rw [hrules]
    have h1 : ingressPolicyJumpArgs p version ≠ statefulFirewallArgs :=
      ne_of_length_ne (by
        rw [ingressPolicyJumpArgs_length, statefulFirewallArgs_length]; decide)
    have h2 : ingressPolicyJumpArgs p version ≠ localNodeAllowArgs pod :=
      ne_of_length_ne (by
        rw [ingressPolicyJumpArgs_length, localNodeAllowArgs_length]; decide)
    rw [List.count_cons_of_ne h1, List.count_cons_of_ne h2]
    have hnd := nodup_map_jumpArgs version
      (pols.filter (fun p => decide (pod.ip ∈ p.targetPods)))
      (hnames.sublist ((List.filter_sublist pols).map _))
    exact count_eq_one_of_mem_nodup (List.nodup_reverse.mpr hnd)
      (List.mem_reverse.mpr (List.mem_map.mpr ⟨p, hp, rfl⟩))
  · rw [hrules, List.count_eq_zero]
    intro hmem
    rcases List.mem_cons.mp hmem with heq | hmem'
    · exact ne_of_length_ne (by
        rw [defaultIngressJumpArgs_length, statefulFirewallArgs_length]; decide) heq
    rcases List.mem_cons.mp hmem' with heq | hmem''
    · exact ne_of_length_ne (by
        rw [defaultIngressJumpArgs_length, localNodeAllowArgs_length]; decide) heq
    · exact notMem_jump_reverse (by
        rw [defaultIngressJumpArgs_length]; decide) _ hmem''
  · rw [hrules, List.count_eq_zero]
    intro hmem
    rcases List.mem_cons.mp hmem with heq | hmem'
    · exact ne_of_length_ne (by
        rw [defaultEgressJumpArgs_length, statefulFirewallArgs_length]; decide) heq
    rcases List.mem_cons.mp hmem' with heq | hmem''
    · exact ne_of_length_ne (by
        rw [defaultEgressJumpArgs_length, localNodeAllowArgs_length]; decide) heq
    · exact notMem_jump_reverse (by
        rw [defaultEgressJumpArgs_length]; decide) _ hmem''

/-- C10 witness: with one targeting policy on a fresh chain, the egress
pass after the ingress pass is the identity. -/
theorem setupPodEgressRules_shared_jumps_witness :
    setupPodEgressRules ⟨"10.1.1.2", "podA", "nsA", []⟩ "KUBE-POD-FW-TEST"
        [⟨"polA", "nsA", ["10.1.1.2"]⟩] "v1"
        ((setupPodIngressRules ⟨"10.1.1.2", "podA", "nsA", []⟩ "KUBE-POD-FW-TEST"
          [⟨"polA", "nsA", ["10.1.1.2"]⟩] "v1"
          (⟨[(("filter", "KUBE-POD-FW-TEST"), [])]⟩ : IPT)).state) =
      .ok ((setupPodIngressRules ⟨"10.1.1.2", "podA", "nsA", []⟩ "KUBE-POD-FW-TEST"
          [⟨"polA", "nsA", ["10.1.1.2"]⟩] "v1"
          (⟨[(("filter", "KUBE-POD-FW-TEST"), [])]⟩ : IPT)).state) :=
  (setupPodEgressRules_shared_jumps ⟨"10.1.1.2", "podA", "nsA", []⟩
    "KUBE-POD-FW-TEST" [⟨"polA", "nsA", ["10.1.1.2"]⟩] "v1"
    ⟨[(("filter", "KUBE-POD-FW-TEST"), [])]⟩
    ((setupPodIngressRules ⟨"10.1.1.2", "podA", "nsA", []⟩ "KUBE-POD-FW-TEST"
      [⟨"polA", "nsA", ["10.1.1.2"]⟩] "v1"
      (⟨[(("filter", "KUBE-POD-FW-TEST"), [])]⟩ : IPT)).state)
    (by decide) (by decide) (by decide) (by decide)).2.1

/-- C10 counterexample: with the same targeting policy listed twice, after
the ingress and egress passes the chain holds one policy-jump rule, not one
per entry of the targeting list. -/
theorem setupPodEgressRules_duplicate_policy_counterexample :
    (rulesOf ((setupPodEgressRules ⟨"10.1.1.2", "podA", "nsA", []⟩
        "KUBE-POD-FW-TEST"
        [⟨"polA", "nsA", ["10.1.1.2"]⟩, ⟨"polA", "nsA", ["10.1.1.2"]⟩] "v1"
        ((setupPodIngressRules ⟨"10.1.1.2", "podA", "nsA", []⟩ "KUBE-POD-FW-TEST"
          [⟨"polA", "nsA", ["10.1.1.2"]⟩, ⟨"polA", "nsA", ["10.1.1.2"]⟩] "v1"
          (⟨[(("filter", "KUBE-POD-FW-TEST"), [])]⟩ : IPT)).state)).state) "filter"
      "KUBE-POD-FW-TEST").countP isPolicyJumpRule = 1 ∧
    (([⟨"polA", "nsA", ["10.1.1.2"]⟩, ⟨"polA", "nsA", ["10.1.1.2"]⟩] :
        List networkPolicyInfo).filter
      (fun p => decide ("10.1.1.2" ∈ p.targetPods))).length = 2 := by
  decide

/-! Length facts about the hash and encoding, for the chain namer claim. -/

theorem wordBytes_length (x : Nat) : (wordBytes x).length = 4 := rfl

theorem sha256_length (msg : List Nat) : (sha256 msg).length = 32 := by
  unfold sha256
  simp [wordBytes]

theorem b32_length : ∀ (l : List Nat), (b32 l).length = 8 * ((l.length + 4) / 5)
  | b0 :: b1 :: b2 :: b3 :: b4 :: rest => by
    have ih := b32_length rest
    simp only [b32, List.length_append, List.length_cons, List.length_nil, ih]
    omega
  | [b0, b1, b2, b3] => by simp [b32]
  | [b0, b1, b2] => by simp [b32]
  | [b0, b1] => by simp [b32]
  | [b0] => by simp [b32]
  | [] => by simp [b32]

theorem string_take_length (s : String) (n : Nat) :
    (s.take n).length = min n s.length := by
  show (s.take n).data.length = _
  rw [String.data_take]
  exact List.length_take n s.data

/-- C4: podFirewallChainName is a pure deterministic function: its result
is the pod-chain role prefix followed by the first 16 characters of the
standard base32 encoding of the SHA-256 digest of the concatenation
namespace + pod name + version; identical inputs yield the identical chain
name, and the name length is the prefix length plus exactly 16. -/
theorem podFirewallChainName_spec :
    (∀ nspace podName version : String,
      podFirewallChainName nspace podName version =
        kubePodFirewallChainPfx ++
          (base32Encode (sha256 (strBytes (nspace ++ podName ++ version)))).take 16) ∧
    (∀ n1 p1 v1 n2 p2 v2 : String, n1 = n2 → p1 = p2 → v1 = v2 →
      podFirewallChainName n1 p1 v1 = podFirewallChainName n2 p2 v2) ∧
    (∀ nspace podName version : String,
      (podFirewallChainName nspace podName version).length =
        kubePodFirewallChainPfx.length + 16) := by
  refine ⟨fun _ _ _ => rfl, ?_, ?_⟩
  · intro n1 p1 v1 n2 p2 v2 h1 h2 h3
    subst h1; subst h2; subst h3
    rfl
  · intro nspace podName version
    unfold podFirewallChainName
    rw [String.length_append, string_take_length]
    have h2 : (base32Encode (sha256 (strBytes (nspace ++ podName ++ version)))).length
        = 56 := by
      show (b32 (sha256 (strBytes (nspace ++ podName ++ version)))).length = 56
      rw [b32_length, sha256_length]
    rw [h2]
    omega

/-- C4 witness: determinism applied at concrete inputs, and the concrete
chain name of the fixture pod. -/
theorem podFirewallChainName_spec_witness :
    podFirewallChainName "nsA" "podA" "v1" = podFirewallChainName "nsA" "podA" "v1" ∧
    podFirewallChainName "nsA" "podA" "v1" = "KUBE-POD-FW-WHN65CMFHIJA3WHV" :=
  ⟨podFirewallChainName_spec.2.1 "nsA" "podA" "v1" "nsA" "podA" "v1" rfl rfl rfl,
   by decide⟩

end KubeRouter
